import Mathlib

set_option maxHeartbeats 1000000

/-!
Verification development for the xmlpath tree builder and query
primitives (parser.go).  Byte strings (Go `string` / `[]byte`) are
modelled as `List Nat`; the flat node store (`[]Node`) is a
`List Node`, and the Go pointer fields `up`/`down`/`nodes` become an
index (`Option Nat`), an index list, and an explicitly passed store.
-/

namespace Xmlpath

/-- Node kinds, mirroring the `NodeKind` constants of parser.go:
AnyNode, StartNode, EndNode, AttrNode, TextNode, CommentNode,
ProcInstNode (in that order; `anyNode` is the Go zero value). -/
inductive NodeKind where
  | anyNode
  | startNode
  | endNode
  | attrNode
  | textNode
  | commentNode
  | procInstNode
deriving DecidableEq

/-- xml.Name: namespace (`Space`) and local part (`Local`) as byte strings. -/
structure XmlName where
  space : List Nat
  locName : List Nat
deriving DecidableEq

/-- The empty xml.Name (Go zero value). -/
def emptyName : XmlName := ⟨[], []⟩

/-- Node of parser.go.  `kind`, `name`, `attr` and `text` are the
materialization fields; `pos`/`end_` is the half-open range over the
flat store, `up` the parent back-reference (an index instead of a Go
pointer), `down` the child list (indices instead of pointers).  The Go
field `nodes` (the whole slice) is passed separately to every query
function.  The numeric/link fields default to the Go zero value. -/
structure Node where
  kind : NodeKind
  name : XmlName
  attr : List Nat
  text : List Nat
  pos : Nat
  end_ : Nat
  up : Option Nat
  down : List Nat
deriving DecidableEq

/-- The Go zero value `Node{}` (kind AnyNode, everything empty). -/
def zeroNode : Node := ⟨.anyNode, emptyName, [], [], 0, 0, none, []⟩

instance : Inhabited Node := ⟨zeroNode⟩

/-- Indexing into the node store (`nodes[i]`); out of range yields the
zero node (Go indexing is always in bounds in the source). -/
def getN (ns : List Node) (i : Nat) : Node := (ns[i]?).getD zeroNode

/-- The index interval [lo, hi) as a list, for the loops
`for i := lo; i < hi; i++` over the node store. -/
def idxRange (lo hi : Nat) : List Nat := List.range' lo (hi - lo)

/-! ## Query primitives (Node.Bytes, equals, contains, startsWith) -/

/-- The append loop of Node.Bytes over a list of store indices:
`for i := pos; i < end; i++ { if TextNode { text = append(text, ...) } }`.
The first size-computing pass of the Go code only pre-sizes the
allocation and does not change the result. -/
def bytesAux (ns : List Node) : List Nat → List Nat → List Nat
  | [], acc => acc
  | i :: is, acc =>
    if (getN ns i).kind = .textNode then bytesAux ns is (acc ++ (getN ns i).text)
    else bytesAux ns is acc

/-- Node.Bytes: the attribute value for AttrNode, the own text for
other non-Start nodes, and for StartNode the concatenation of the text
of every TextNode entry in [pos, end). -/
def Node.Bytes (ns : List Node) (node : Node) : List Nat :=
  if node.kind = .attrNode then node.attr
  else if node.kind ≠ .startNode then node.text
  else bytesAux ns (idxRange node.pos node.end_) []

/-- One fragment step of Node.equals: consume the fragment `text`
against the remaining candidate `s` (`if si >= len(s) return false;
if s[si] != c return false; si++`), returning the unconsumed rest of
`s`, or `none` on mismatch or overrun. -/
def consume : List Nat → List Nat → Option (List Nat)
  | s, [] => some s
  | [], _ :: _ => none
  | b :: s, c :: text => if b = c then consume s text else none

/-- The fragment walk of Node.equals over the indices of [pos, end):
non-Text entries are skipped; at the end the walk succeeds only if the
whole candidate was consumed (`si == len(s)`). -/
def equalsAux (ns : List Node) : List Nat → List Nat → Bool
  | [], s => s.isEmpty
  | i :: is, s =>
    if (getN ns i).kind = .textNode then
      match consume s (getN ns i).text with
      | some s' => equalsAux ns is s'
      | none => false
    else equalsAux ns is s

/-- Node.equals: `s == node.attr` for AttrNode, a length check plus
byte-by-byte comparison with the own text for other non-Start nodes
(exactly list equality), and the fragment walk for StartNode. -/
def Node.equals (ns : List Node) (node : Node) (s : List Nat) : Bool :=
  if node.kind = .attrNode then s == node.attr
  else if node.kind ≠ .startNode then s == node.text
  else equalsAux ns (idxRange node.pos node.end_) s

/-- Textbook byte-string prefix test (strings.HasPrefix). -/
def isPrefixB : List Nat → List Nat → Bool
  | [], _ => true
  | _ :: _, [] => false
  | a :: s, b :: t => a == b && isPrefixB s t

/-- Textbook byte-string substring test (strings.Contains): some
suffix of the haystack has the needle as a prefix. -/
def isSubstringB (s : List Nat) (hay : List Nat) : Bool :=
  isPrefixB s hay ||
    match hay with
    | [] => false
    | _ :: t => isSubstringB s t

/-- The within-fragment extension of a Node.contains attempt: consume
the rest `rem` of the candidate against the rest `cur` of the current
fragment byte by byte (`if s[si] != text[ci] continue NextTry`);
`none` on a mismatched byte, otherwise the unconsumed rest of the
candidate once either list runs out. -/
def extFrag : List Nat → List Nat → Option (List Nat)
  | rem, [] => some rem
  | [], _ :: _ => some []
  | b :: rem, c :: cur => if b = c then extFrag rem cur else none

/-- The cross-fragment extension of a Node.contains attempt (the
`for j := i + 1; j < node.end; j++` loop): continue consuming the
candidate through the Text fragments among the store indices `js`
strictly in order; success as soon as the candidate is exhausted,
failure on a mismatched byte or when the fragments run out first. -/
def extAcross (ns : List Node) : List Nat → List Nat → Bool
  | [], _ => true
  | _ :: _, [] => false
  | r :: rem', j :: js' =>
    if (getN ns j).kind = .textNode then
      match extFrag (r :: rem') (getN ns j).text with
      | none => false
      | some rem'' =>
        if rem'' = [] then true else extAcross ns rem'' js'
    else extAcross ns (r :: rem') js'

/-- The full extension of one match attempt: the rest of the current
fragment first (`if si == len(s) return true` after it), then the
subsequent fragments. -/
def containsExt (ns : List Node) (rem cur : List Nat) (js : List Nat) :
    Bool :=
  match extFrag rem cur with
  | none => false
  | some rem' => if rem' = [] then true else extAcross ns rem' js

/-- The `NextTry` loop of Node.contains: try every position of the
current fragment whose byte equals the first candidate byte `s0` as a
match start, extending with `containsExt`. -/
def containsFrag (ns : List Node) (s0 : Nat) (rem : List Nat) :
    List Nat → List Nat → Bool
  | [], _ => false
  | c :: frag, js =>
    if c = s0 && containsExt ns rem frag js then true
    else containsFrag ns s0 rem frag js

/-- The outer loop of Node.contains over the indices of [pos, end):
only TextNode entries provide match-start positions; the extension may
run into the subsequent indices. -/
def containsLoop (ns : List Node) (s0 : Nat) (rem : List Nat) :
    List Nat → Bool
  | [] => false
  | i :: is =>
    if (getN ns i).kind = .textNode then
      if containsFrag ns s0 rem (getN ns i).text is then true
      else containsLoop ns s0 rem is
    else containsLoop ns s0 rem is

/-- Node.contains: an empty candidate always matches; AttrNode uses
strings.Contains on the attribute value; every other kind scans the
TextNode entries of its own range [pos, end). -/
def Node.contains (ns : List Node) (node : Node) (s : List Nat) : Bool :=
  match s with
  | [] => true
  | s0 :: rem =>
    if node.kind = .attrNode then isSubstringB (s0 :: rem) node.attr
    else containsLoop ns s0 rem (idxRange node.pos node.end_)

/-- One fragment step of Node.startsWith: consume matching bytes; a
mismatched byte exits the fragment (`break`) KEEPING the progress made
so far (`some` of the remaining candidate); `none` signals that the
candidate was fully consumed (`si == len(s)`, overall result true). -/
def startsFrag : List Nat → List Nat → Option (List Nat)
  | rem, [] => some rem
  | [], _ :: _ => none
  | b :: rem, c :: frag =>
    if c ≠ b then some (b :: rem)
    else if rem = [] then none
    else startsFrag rem frag

/-- The loop of Node.startsWith over the indices of [pos, end),
skipping non-Text entries. -/
def startsLoop (ns : List Node) : List Nat → List Nat → Bool
  | [], _ => false
  | i :: is, rem =>
    if (getN ns i).kind ≠ .textNode then startsLoop ns is rem
    else
      match startsFrag rem (getN ns i).text with
      | none => true
      | some rem' => startsLoop ns is rem'

/-- Node.startsWith: an empty candidate always matches; AttrNode uses
strings.HasPrefix on the attribute value; every other kind walks the
TextNode entries of its own range [pos, end). -/
def Node.startsWith (ns : List Node) (node : Node) (s : List Nat) : Bool :=
  if s = [] then true
  else if node.kind = .attrNode then isPrefixB s node.attr
  else startsLoop ns (idxRange node.pos node.end_) s

/-! ## The canonical token stream and materialization (first loop of
ParseDecoder) -/

/-- The xml.Token values the decoder loop of ParseDecoder consumes
(StartElement with its attributes, EndElement, CharData, Comment,
ProcInst).  The token list stands for an error-free decoder stream:
a decoder error aborts construction before the builder runs and is
external to this code. -/
inductive Token where
  | startElement (name : XmlName) (attrs : List (XmlName × List Nat))
  | endElement
  | charData (t : List Nat)
  | comment (t : List Nat)
  | procInst (target : List Nat) (inst : List Nat)

/-- A freshly materialized node: link fields at the Go zero value.
The shared text buffer of the source is an allocation optimization;
each node here directly holds the bytes its span denotes. -/
def mkNode (kind : NodeKind) (name : XmlName) (attr text : List Nat) : Node :=
  ⟨kind, name, attr, text, 0, 0, none, []⟩

/-- The materialization loop of ParseDecoder: one node per token,
except start tags, which also append one AttrNode per attribute in
declaration order. -/
def materialize : List Token → List Node
  | [] => []
  | t :: ts =>
    (match t with
     | .endElement => [mkNode .endNode emptyName [] []]
     | .startElement nm attrs =>
       mkNode .startNode nm [] [] ::
         attrs.map (fun a => mkNode .attrNode a.1 a.2 [])
     | .charData b => [mkNode .textNode emptyName [] b]
     | .comment b => [mkNode .commentNode emptyName [] b]
     | .procInst target inst =>
       [mkNode .procInstNode ⟨[], target⟩ [] inst]) ++ materialize ts

/-! ## The second pass (stack walk) of ParseDecoder / ParseHTML -/

/-- Abnormal outcomes of the stack walk.  `stackUnderflow` models the
Go runtime panic raised by `stack[len(stack)-1]` on an empty stack (an
End event with no open element): a loud, distinct failure signal that
never yields a tree.  `unexpectedEOF` is the `io.EOF` returned when
the loop exhausts the store with the stack never emptying. -/
inductive BuildErr where
  | stackUnderflow
  | unexpectedEOF
deriving DecidableEq

/-- The kinds admitted into a `down` (children) list by the closing
scan: StartNode, TextNode, CommentNode, ProcInstNode. -/
def downKind : NodeKind → Bool
  | .startNode | .textNode | .commentNode | .procInstNode => true
  | _ => false

/-- The closing scan over a just-closed Start node's range
(`for i := node.pos+1; i < node.end; i++`): direct children are the
entries whose `up` equals this node's index and whose kind is
admitted; they are collected in index (= document) order. -/
def downFilter (ns : List Node) (top e : Nat) : List Nat :=
  (idxRange (top + 1) e).filter
    (fun j => ((getN ns j).up == some top) && downKind (getN ns j).kind)

/-- The update applied to a Start event's node by the walk: record its
own index (`node.pos = pos`) and its parent (`node.up`, the stack top
or none). -/
def markStart (n : Node) (p : Nat) (u : Option Nat) : Node :=
  { n with pos := p, up := u }

/-- The update applied to an Attr/Text/Comment/ProcInst event's node:
own index, parent, and the one-element range end `pos + 1`. -/
def markLeaf (n : Node) (p : Nat) (u : Option Nat) : Node :=
  { n with pos := p, up := u, end_ := p + 1 }

/-- The update applied to a Start node when its End event pops it: the
range end (the End event's position) and the computed children
slice. -/
def closeNode (n : Node) (e : Nat) (d : List Nat) : Node :=
  { n with end_ := e, down := d }

/-- The single forward pass of ParseDecoder/ParseHTML with its explicit
stack of open StartNode indices.  `fuel` counts the remaining loop
iterations (the caller passes the store length, the loop bound
`for pos := range nodes`).  On a Start event the node records the
stack top as parent and is pushed; other leaf events record parent and
the one-element range; an End event pops the top, sets its range end
and computes its `down` slice; when the pop empties the stack that
node is returned at once.  Running out of events returns io.EOF. -/
def runLoop : Nat → List Node → Nat → List Nat →
    Except BuildErr (List Node × Nat)
  | 0, _, _, _ => .error .unexpectedEOF
  | fuel + 1, ns, pos, stack =>
    match (getN ns pos).kind with
    | .endNode =>
      match stack with
      | [] => .error .stackUnderflow
      | top :: stack' =>
        let ns' := ns.set top
          (closeNode (getN ns top) pos (downFilter ns (getN ns top).pos pos))
        if stack' = [] then .ok (ns', top)
        else runLoop fuel ns' (pos + 1) stack'
    | .startNode =>
      runLoop fuel (ns.set pos (markStart (getN ns pos) pos stack.head?))
        (pos + 1) (pos :: stack)
    | .attrNode | .textNode | .commentNode | .procInstNode =>
      runLoop fuel (ns.set pos (markLeaf (getN ns pos) pos stack.head?))
        (pos + 1) stack
    | .anyNode => runLoop fuel ns (pos + 1) stack

/-- The fully materialized store before the second pass: the synthetic
root StartNode, the adapter's nodes, the synthetic closing EndNode. -/
def initialStore (middle : List Node) : List Node :=
  mkNode .startNode emptyName [] [] :: middle ++
    [mkNode .endNode emptyName [] []]

/-- The shared builder: prepend the synthetic root StartNode, append
its closing EndNode, then run the stack walk over the whole store.
ParseDecoder and ParseHTML contain this code verbatim (duplicated in
the source). -/
def build (middle : List Node) : Except BuildErr (List Node × Nat) :=
  runLoop (initialStore middle).length (initialStore middle) 0 []

/-- ParseDecoder: materialize the token stream, then build. -/
def ParseDecoder (ts : List Token) : Except BuildErr (List Node × Nat) :=
  build (materialize ts)

/-! ## The HTML adapter (ParseHTML) -/

/-- The html.Node tree shapes the ParseHTML traversal distinguishes:
DocumentNode (no event of its own), ElementNode (Start, attributes,
children, End), TextNode, CommentNode; every other html node type
(doctype, error, raw) emits nothing and has no children. -/
inductive HtmlNode where
  | document (children : List HtmlNode)
  | element (name space : List Nat) (attrs : List (XmlName × List Nat))
      (children : List HtmlNode)
  | text (t : List Nat)
  | comment (t : List Nat)
  | other

mutual

/-- The pre-order depth-first emission loop of ParseHTML (the
iterative FirstChild/NextSibling/Parent walk of the source, written as
structural recursion): an element emits Start, its attributes, its
children's events, then End; the document emits only its children's
events. -/
def emit : HtmlNode → List Node
  | .document cs => emitList cs
  | .element nm sp attrs cs =>
    mkNode .startNode ⟨sp, nm⟩ [] [] ::
      (attrs.map (fun a => mkNode .attrNode a.1 a.2 []) ++
        (emitList cs ++ [mkNode .endNode emptyName [] []]))
  | .text b => [mkNode .textNode emptyName [] b]
  | .comment b => [mkNode .commentNode emptyName [] b]
  | .other => []

/-- Emission over a sibling list, in order. -/
def emitList : List HtmlNode → List Node
  | [] => []
  | c :: cs => emit c ++ emitList cs

end

/-- ParseHTML: emit the canonical events of the parsed html document
tree, then run the identical build (synthetic root included). -/
def ParseHTML (doc : HtmlNode) : Except BuildErr (List Node × Nat) :=
  build (emit doc)

/-! ## Convenience extractors for concrete evaluations -/

/-- The store of a successful construction (empty on error). -/
def storeOf (e : Except BuildErr (List Node × Nat)) : List Node :=
  match e with
  | .ok (st, _) => st
  | .error _ => []

/-- The root index of a successful construction (0 on error). -/
def rootOf (e : Except BuildErr (List Node × Nat)) : Nat :=
  match e with
  | .ok (_, r) => r
  | .error _ => 0

/-! ## Basic store lemmas -/

theorem getN_set_ne (ns : List Node) (p i : Nat) (e : Node) (h : p ≠ i) :
    getN (ns.set p e) i = getN ns i := by
  unfold getN
  rw [List.getElem?_set_ne h]

theorem getN_set_self (ns : List Node) (p : Nat) (e : Node)
    (h : p < ns.length) : getN (ns.set p e) p = e := by
  unfold getN
  rw [List.getElem?_set_eq_of_lt e h]
  rfl

theorem getN_oob (ns : List Node) (i : Nat) (h : ns.length ≤ i) :
    getN ns i = zeroNode := by
  unfold getN
  rw [List.getElem?_eq_none h]
  rfl

/-! ## The virtual string value as a concatenation -/

/-- The concatenation of the texts of the TextNode entries among a
list of store indices, in order. -/
def joinTexts (ns : List Node) : List Nat → List Nat
  | [] => []
  | i :: is =>
    (if (getN ns i).kind = .textNode then (getN ns i).text else []) ++
      joinTexts ns is

theorem bytesAux_eq (ns : List Node) :
    ∀ is acc, bytesAux ns is acc = acc ++ joinTexts ns is := by
  intro is
  induction is with
  | nil => intro acc; simp [bytesAux, joinTexts]
  | cons i is ih =>
    intro acc
    by_cases h : (getN ns i).kind = .textNode
    · simp [bytesAux, joinTexts, h, ih, List.append_assoc]
    · simp [bytesAux, joinTexts, h, ih]

/-- Modelled from the spec's wording of the virtual string value: the
ordered concatenation of the text of every Text-kind node within the
range, Comment/ProcessingInstruction/Attr (and Start/End) entries
contributing nothing. -/
def specVirtualValue (ns : List Node) (lo hi : Nat) : List Nat :=
  (((idxRange lo hi).filter (fun i => (getN ns i).kind == .textNode)).map
    (fun i => (getN ns i).text)).flatten

theorem joinTexts_eq_spec (ns : List Node) (is : List Nat) :
    joinTexts ns is =
      ((is.filter (fun i => (getN ns i).kind == .textNode)).map
        (fun i => (getN ns i).text)).flatten := by
  induction is with
  | nil => rfl
  | cons i is ih =>
    by_cases h : (getN ns i).kind = .textNode
    · simp [joinTexts, h, ih]
    · simp [joinTexts, h, ih, beq_iff_eq]

/-! ## equals agrees with the materialized value (claim C4) -/

theorem consume_eq_some (t : List Nat) :
    ∀ s s', consume s t = some s' ↔ s = t ++ s' := by
  induction t with
  | nil => intro s s'; simp [consume]
  | cons c t ih =>
    intro s s'
    cases s with
    | nil => simp [consume]
    | cons b s =>
      by_cases hb : b = c
      · subst hb; simp [consume, ih]
      · simp [consume, hb]

theorem equalsAux_iff (ns : List Node) :
    ∀ is s, equalsAux ns is s = true ↔ s = joinTexts ns is := by
  intro is
  induction is with
  | nil =>
    intro s
    simp [equalsAux, joinTexts, List.isEmpty_iff]
  | cons i is ih =>
    intro s
    by_cases h : (getN ns i).kind = .textNode
    · cases hc : consume s (getN ns i).text with
      | none =>
        have hstep : equalsAux ns (i :: is) s = false := by
          simp [equalsAux, h, hc]
        rw [hstep]
        simp only [joinTexts, h, if_pos]
        constructor
        · intro hfalse; cases hfalse
        · intro hs
          exfalso
          have hcc : consume s (getN ns i).text = some (joinTexts ns is) :=
            (consume_eq_some _ _ _).mpr hs
          rw [hc] at hcc
          cases hcc
      | some s' =>
        have hs : s = (getN ns i).text ++ s' := (consume_eq_some _ _ _).mp hc
        have hstep : equalsAux ns (i :: is) s = equalsAux ns is s' := by
          simp [equalsAux, h, hc]
        rw [hstep, ih, hs]
        simp only [joinTexts, h, if_pos]
        constructor
        · intro he; rw [he]
        · intro he; exact List.append_cancel_left he
    · simp [equalsAux, h, joinTexts, ih]

/-- Claim C4: for every node of every kind and every candidate string,
the allocation-free equality test returns true exactly when the
materialized virtual string value (Node.Bytes) equals the candidate
byte-for-byte. -/
theorem equals_iff_bytes (ns : List Node) (node : Node) (s : List Nat) :
    Node.equals ns node s = true ↔ Node.Bytes ns node = s := by
  unfold Node.equals Node.Bytes
  by_cases h1 : node.kind = .attrNode
  · rw [if_pos h1, if_pos h1, beq_iff_eq, eq_comm]
  · rw [if_neg h1, if_neg h1]
    by_cases h2 : node.kind = .startNode
    · rw [if_neg (fun hcon => hcon h2), if_neg (fun hcon => hcon h2)]
      rw [equalsAux_iff, bytesAux_eq, List.nil_append]
      exact eq_comm
    · rw [if_pos h2, if_pos h2, beq_iff_eq, eq_comm]

/-! ## Empty candidates (claim C9) -/

/-- Claim C9: contains("") and startsWith("") are true for every node,
of every kind, over every store. -/
theorem empty_contains_and_startsWith (ns : List Node) (node : Node) :
    Node.contains ns node [] = true ∧ Node.startsWith ns node [] = true := by
  exact ⟨rfl, rfl⟩

/-! ## Concrete constructed trees for the contains/startsWith claims -/

/-- Token stream of `<!--ab-->`: a single comment whose text is "ab". -/
def tsC1 : List Token := [.comment [97, 98]]

/-- The store built from tsC1 (root, comment, closing End). -/
def stC1 : List Node := storeOf (ParseDecoder tsC1)

/-- Claim C1 (code bug): in the tree built from `<!--ab-->`, node 1 is
the constructed Comment node, its materialized virtual value
(Node.Bytes) is "ab", the textbook substring check finds "ab" in that
value, yet contains("ab") returns false — contains scans only
TextNode-kind entries of the node's range, so a Comment (or
ProcessingInstruction) node's own text is never examined. -/
theorem contains_comment_node_divergence :
    (getN stC1 1).kind = .commentNode ∧
    (getN stC1 1).text = [97, 98] ∧
    Node.Bytes stC1 (getN stC1 1) = [97, 98] ∧
    isSubstringB [97, 98] (Node.Bytes stC1 (getN stC1 1)) = true ∧
    Node.contains stC1 (getN stC1 1) [97, 98] = false := by
  decide

/-- Token stream of `<p>ax<!--q-->b</p>`: Text fragments "ax" and "b"
separated by a comment. -/
def tsC2 : List Token :=
  [.startElement ⟨[], [112]⟩ [], .charData [97, 120], .comment [113],
    .charData [98], .endElement]

/-- The store built from tsC2. -/
def stC2 : List Node := storeOf (ParseDecoder tsC2)

/-- Claim C2 (code bug): in the tree built from `<p>ax<!--q-->b</p>`,
the p element's materialized value is "axb", which does not start with
"ab" by the textbook prefix check, yet startsWith("ab") returns true:
on the byte mismatch ('x' vs 'b') the loop only breaks out of the
current fragment, keeping the partial progress, and resumes matching
at the next Text fragment instead of failing. -/
theorem startsWith_fragment_break_divergence :
    (getN stC2 1).kind = .startNode ∧
    Node.Bytes stC2 (getN stC2 1) = [97, 120, 98] ∧
    isPrefixB [97, 98] (Node.Bytes stC2 (getN stC2 1)) = false ∧
    Node.startsWith stC2 (getN stC2 1) [97, 98] = true := by
  decide

/-- Token stream of `<a>ab<!--x-->cd</a>`: Text fragments "ab" and
"cd" separated by a comment. -/
def tsC3 : List Token :=
  [.startElement ⟨[], [97]⟩ [], .charData [97, 98], .comment [120],
    .charData [99, 100], .endElement]

/-- The store built from tsC3. -/
def stC3 : List Node := storeOf (ParseDecoder tsC3)

/-- Claim C3: in the constructed tree whose a element has descendant
Text fragments "ab" then (after an intervening Comment) "cd",
contains("bc") is true although "bc" is a substring of neither single
fragment. -/
theorem contains_spans_fragments :
    (getN stC3 1).kind = .startNode ∧
    (getN stC3 2).kind = .textNode ∧ (getN stC3 2).text = [97, 98] ∧
    (getN stC3 3).kind = .commentNode ∧
    (getN stC3 4).kind = .textNode ∧ (getN stC3 4).text = [99, 100] ∧
    isSubstringB [98, 99] [97, 98] = false ∧
    isSubstringB [98, 99] [99, 100] = false ∧
    Node.contains stC3 (getN stC3 1) [98, 99] = true := by
  decide

/-! ## Termination outcome of the stack walk (claim C6) -/

/-- The three possible outcomes of one construction call. -/
inductive Outcome where
  | success
  | underflow
  | eof
deriving DecidableEq

/-- The observed outcome of the builder: a returned tree, the
underflow signal (a Go runtime panic in the source), or io.EOF. -/
def outcomeOf (e : Except BuildErr (List Node × Nat)) : Outcome :=
  match e with
  | .ok _ => .success
  | .error .stackUnderflow => .underflow
  | .error .unexpectedEOF => .eof

/-- Modelled from the spec's termination rule (the stack discipline of
§4.2, step 4), stated over the canonical event kinds and the count of
currently-open Start events: construction succeeds exactly at the End
event processed with one open element — the synthetic root's End, the
stack becoming empty immediately after it; an End event arriving with
no open element is the underflow violation; exhausting the events with
elements still open is the EOF violation. -/
def specOutcome : List NodeKind → Nat → Outcome
  | [], _ => .eof
  | k :: ks, d =>
    match k with
    | .startNode => specOutcome ks (d + 1)
    | .endNode =>
      if d = 0 then .underflow
      else if d = 1 then .success
      else specOutcome ks (d - 1)
    | _ => specOutcome ks d

theorem set_kind_self (ns : List Node) (p : Nat) :
    (ns.map Node.kind).set p (getN ns p).kind = ns.map Node.kind := by
  induction ns generalizing p with
  | nil => rfl
  | cons a as ih =>
    cases p with
    | zero => simp [getN]
    | succ p =>
      have hg : getN (a :: as) (p + 1) = getN as p := by simp [getN]
      simp only [List.map_cons, List.set_cons_succ]
      rw [hg, ih p]

theorem map_kind_set_eq (ns : List Node) (p : Nat) (e : Node)
    (h : e.kind = (getN ns p).kind) :
    (ns.set p e).map Node.kind = ns.map Node.kind := by
  rw [List.map_set, h, set_kind_self]

theorem map_kind_drop_cons (ns : List Node) (pos : Nat)
    (h : pos < ns.length) :
    (ns.map Node.kind).drop pos =
      (getN ns pos).kind :: (ns.map Node.kind).drop (pos + 1) := by
  have h' : pos < (ns.map Node.kind).length := by simpa using h
  rw [List.drop_eq_getElem_cons h']
  congr 1
  simp [getN, List.getElem?_eq_getElem h]

theorem runLoop_outcome :
    ∀ fuel ns pos stack, ns.length - pos = fuel →
      outcomeOf (runLoop fuel ns pos stack) =
        specOutcome ((ns.map Node.kind).drop pos) stack.length := by
  intro fuel
  induction fuel with
  | zero =>
    intro ns pos stack hf
    have hlen : ns.length ≤ pos := Nat.le_of_sub_eq_zero hf
    have : (ns.map Node.kind).drop pos = [] :=
      List.drop_eq_nil_of_le (by simpa using hlen)
    rw [this]
    rfl
  | succ fuel ih =>
    intro ns pos stack hf
    have hpos : pos < ns.length := by omega
    rw [map_kind_drop_cons ns pos hpos]
    cases hk : (getN ns pos).kind with
    | endNode =>
      cases stack with
      | nil =>
        simp [runLoop, hk, outcomeOf, specOutcome]
      | cons top stack' =>
        by_cases hs : stack' = []
        · subst hs
          simp [runLoop, hk, outcomeOf, specOutcome]
        · simp only [runLoop, hk]
          rw [if_neg hs]
          rw [ih (ns.set top
              (closeNode (getN ns top) pos (downFilter ns (getN ns top).pos pos)))
            (pos + 1) stack' (by rw [List.length_set]; omega)]
          rw [map_kind_set_eq ns top
            (closeNode (getN ns top) pos (downFilter ns (getN ns top).pos pos)) rfl]
          have hd1 : ¬ (stack'.length + 1 = 1) := by
            intro hcon
            exact hs (List.eq_nil_of_length_eq_zero (by omega))
          simp only [List.length_cons, specOutcome]
          rw [if_neg (by omega), if_neg hd1]
          congr 1
    | startNode =>
      simp only [runLoop, hk]
      rw [ih (ns.set pos (markStart (getN ns pos) pos stack.head?))
        (pos + 1) (pos :: stack) (by rw [List.length_set]; omega)]
      rw [map_kind_set_eq ns pos (markStart (getN ns pos) pos stack.head?) rfl]
      rfl
    | attrNode =>
      simp only [runLoop, hk]
      rw [ih (ns.set pos (markLeaf (getN ns pos) pos stack.head?))
        (pos + 1) stack (by rw [List.length_set]; omega)]
      rw [map_kind_set_eq ns pos (markLeaf (getN ns pos) pos stack.head?) rfl]
      rfl
    | textNode =>
      simp only [runLoop, hk]
      rw [ih (ns.set pos (markLeaf (getN ns pos) pos stack.head?))
        (pos + 1) stack (by rw [List.length_set]; omega)]
      rw [map_kind_set_eq ns pos (markLeaf (getN ns pos) pos stack.head?) rfl]
      rfl
    | commentNode =>
      simp only [runLoop, hk]
      rw [ih (ns.set pos (markLeaf (getN ns pos) pos stack.head?))
        (pos + 1) stack (by rw [List.length_set]; omega)]
      rw [map_kind_set_eq ns pos (markLeaf (getN ns pos) pos stack.head?) rfl]
      rfl
    | procInstNode =>
      simp only [runLoop, hk]
      rw [ih (ns.set pos (markLeaf (getN ns pos) pos stack.head?))
        (pos + 1) stack (by rw [List.length_set]; omega)]
      rw [map_kind_set_eq ns pos (markLeaf (getN ns pos) pos stack.head?) rfl]
      rfl
    | anyNode =>
      simp only [runLoop, hk]
      rw [ih ns (pos + 1) stack (by omega)]
      rfl

/-- Kinds handled by the first switch case of the walk: the kinds of
real nodes (StartNode, AttrNode, TextNode, CommentNode,
ProcInstNode). -/
def isProc (k : NodeKind) : Prop :=
  k = .startNode ∨ k = .attrNode ∨ k = .textNode ∨ k = .commentNode ∨
    k = .procInstNode

/-- Non-Start node kinds: the leaf events, whose range is always one
element. -/
def isMid (k : NodeKind) : Prop :=
  k = .attrNode ∨ k = .textNode ∨ k = .commentNode ∨ k = .procInstNode

/-- Link fields at the Go zero value, as every node of the
materialization phase has them. -/
def defaultLinks (n : Node) : Prop :=
  n.pos = 0 ∧ n.end_ = 0 ∧ n.up = none ∧ n.down = []

/-- The parent chain along the stack of open elements: each open
StartNode's `up` is the next deeper stack entry, and the bottom's `up`
is none. -/
def stackParents (ns : List Node) : List Nat → Prop
  | [] => True
  | [s] => (getN ns s).up = none
  | s :: s' :: rest => (getN ns s).up = some s' ∧ stackParents ns (s' :: rest)

theorem mem_idxRange {j lo hi : Nat} : j ∈ idxRange lo hi ↔ lo ≤ j ∧ j < hi := by
  unfold idxRange
  rw [List.mem_range'_1]
  omega

theorem downFilter_congr (ns1 ns2 : List Node) (t e : Nat)
    (h : ∀ j, t + 1 ≤ j → j < e → getN ns1 j = getN ns2 j) :
    downFilter ns1 t e = downFilter ns2 t e := by
  unfold downFilter
  apply List.filter_congr
  intro j hj
  have hm := mem_idxRange.mp hj
  rw [h j hm.1 hm.2]

theorem stackParents_congr (ns ns' : List Node) :
    ∀ stack, (∀ s ∈ stack, (getN ns' s).up = (getN ns s).up) →
      stackParents ns stack → stackParents ns' stack := by
  intro stack
  induction stack with
  | nil => intro _ _; trivial
  | cons s rest ih =>
    cases rest with
    | nil =>
      intro h hp
      simp only [stackParents] at hp ⊢
      rw [h s (by simp)]
      exact hp
    | cons s' rest' =>
      intro h hp
      simp only [stackParents] at hp ⊢
      exact ⟨by rw [h s (by simp)]; exact hp.1,
        ih (fun x hx => h x (List.mem_cons_of_mem s hx)) hp.2⟩

/-- Along a sorted parent chain, every stack entry's recorded parent
is a strictly smaller index. -/
theorem stackParents_up_lt (ns : List Node) :
    ∀ stack, stackParents ns stack → stack.Pairwise (· > ·) →
      ∀ j ∈ stack, ∀ v, (getN ns j).up = some v → v < j := by
  intro stack
  induction stack with
  | nil => intro _ _ j hj; cases hj
  | cons s rest ih =>
    cases rest with
    | nil =>
      intro hp _ j hj v hv
      rw [List.mem_singleton] at hj
      subst hj
      simp only [stackParents] at hp
      rw [hp] at hv
      cases hv
    | cons s' rest' =>
      intro hp hsort j hj v hv
      simp only [stackParents] at hp
      rcases List.mem_cons.mp hj with hj | hj
      · subst hj
        rw [hp.1] at hv
        cases hv
        exact List.rel_of_pairwise_cons hsort (by simp)
      · exact ih hp.2 (List.Pairwise.of_cons hsort) j hj v hv

/-- The builder invariant, relating the current store `ns`, position
`pos` and open-element stack to the materialized input `ns0` (whose
link fields are all at the zero value).  The fields record exactly
what the walk has established for every processed entry. -/
structure Inv (ns0 ns : List Node) (pos : Nat) (stack : List Nat) :
    Prop where
  hlen : ns.length = ns0.length
  hbase : ∀ i, (getN ns i).kind = (getN ns0 i).kind ∧
    (getN ns i).name = (getN ns0 i).name ∧
    (getN ns i).attr = (getN ns0 i).attr ∧
    (getN ns i).text = (getN ns0 i).text
  huntouched : ∀ i, pos ≤ i → getN ns i = getN ns0 i
  hstack_lt : ∀ s ∈ stack, s < pos
  hstack_sorted : stack.Pairwise (· > ·)
  hstack_state : (pos = 0 ∧ stack = []) ∨
    (0 < pos ∧ ∃ pre, stack = pre ++ [0])
  hstack_props : ∀ s ∈ stack, (getN ns s).kind = .startNode ∧
    (getN ns s).pos = s ∧ (getN ns s).end_ = 0
  hstack_chain : stackParents ns stack
  hproc_pos : ∀ i, i < pos → isProc (getN ns i).kind → (getN ns i).pos = i
  hproc_end1 : ∀ i, i < pos → isMid (getN ns i).kind →
    (getN ns i).end_ = i + 1
  hproc_other : ∀ i, i < pos →
    ((getN ns i).kind = .endNode ∨ (getN ns i).kind = .anyNode) →
    getN ns i = getN ns0 i
  hclosed : ∀ i, i < pos → (getN ns i).kind = .startNode → i ∉ stack →
    i < (getN ns i).end_ ∧ (getN ns i).end_ < pos ∧
    (getN ns i).down = downFilter ns i (getN ns i).end_
  hsep : ∀ i, i < pos → (getN ns i).kind = .startNode → i ∉ stack →
    ∀ s ∈ stack, s < i ∨ (getN ns i).end_ ≤ s
  hup : ∀ i, i < pos → isProc (getN ns i).kind →
    (i = 0 ∧ (getN ns i).up = none) ∨
    (0 < i ∧ ∃ u, (getN ns i).up = some u ∧ u < i ∧
      (getN ns u).kind = .startNode ∧ (u ∈ stack ∨ i < (getN ns u).end_))
  hclosed_parent : ∀ i, i < pos → (getN ns i).kind = .startNode →
    i ∉ stack → ∀ u, (getN ns i).up = some u →
    u ∈ stack ∨ (getN ns i).end_ < (getN ns u).end_
  hsib : ∀ j k u, j < k → k < pos → (getN ns j).kind = .startNode →
    isProc (getN ns k).kind →
    (getN ns j).up = some u → (getN ns k).up = some u →
    j ∉ stack ∧ (getN ns j).end_ ≤ k
  hfresh : ∀ k, k < pos → ∀ u, (getN ns k).up = some u →
    ∀ s ∈ stack, u < s → k ≤ s

@[simp] theorem markLeaf_kind (n : Node) (p : Nat) (u : Option Nat) :
    (markLeaf n p u).kind = n.kind := rfl
@[simp] theorem markLeaf_name (n : Node) (p : Nat) (u : Option Nat) :
    (markLeaf n p u).name = n.name := rfl
@[simp] theorem markLeaf_attr (n : Node) (p : Nat) (u : Option Nat) :
    (markLeaf n p u).attr = n.attr := rfl
@[simp] theorem markLeaf_text (n : Node) (p : Nat) (u : Option Nat) :
    (markLeaf n p u).text = n.text := rfl
@[simp] theorem markLeaf_pos (n : Node) (p : Nat) (u : Option Nat) :
    (markLeaf n p u).pos = p := rfl
@[simp] theorem markLeaf_end (n : Node) (p : Nat) (u : Option Nat) :
    (markLeaf n p u).end_ = p + 1 := rfl
@[simp] theorem markLeaf_up (n : Node) (p : Nat) (u : Option Nat) :
    (markLeaf n p u).up = u := rfl
@[simp] theorem markLeaf_down (n : Node) (p : Nat) (u : Option Nat) :
    (markLeaf n p u).down = n.down := rfl

@[simp] theorem markStart_kind (n : Node) (p : Nat) (u : Option Nat) :
    (markStart n p u).kind = n.kind := rfl
@[simp] theorem markStart_name (n : Node) (p : Nat) (u : Option Nat) :
    (markStart n p u).name = n.name := rfl
@[simp] theorem markStart_attr (n : Node) (p : Nat) (u : Option Nat) :
    (markStart n p u).attr = n.attr := rfl
@[simp] theorem markStart_text (n : Node) (p : Nat) (u : Option Nat) :
    (markStart n p u).text = n.text := rfl
@[simp] theorem markStart_pos (n : Node) (p : Nat) (u : Option Nat) :
    (markStart n p u).pos = p := rfl
@[simp] theorem markStart_end (n : Node) (p : Nat) (u : Option Nat) :
    (markStart n p u).end_ = n.end_ := rfl
@[simp] theorem markStart_up (n : Node) (p : Nat) (u : Option Nat) :
    (markStart n p u).up = u := rfl
@[simp] theorem markStart_down (n : Node) (p : Nat) (u : Option Nat) :
    (markStart n p u).down = n.down := rfl

@[simp] theorem closeNode_kind (n : Node) (e : Nat) (d : List Nat) :
    (closeNode n e d).kind = n.kind := rfl
@[simp] theorem closeNode_name (n : Node) (e : Nat) (d : List Nat) :
    (closeNode n e d).name = n.name := rfl
@[simp] theorem closeNode_attr (n : Node) (e : Nat) (d : List Nat) :
    (closeNode n e d).attr = n.attr := rfl
@[simp] theorem closeNode_text (n : Node) (e : Nat) (d : List Nat) :
    (closeNode n e d).text = n.text := rfl
@[simp] theorem closeNode_pos (n : Node) (e : Nat) (d : List Nat) :
    (closeNode n e d).pos = n.pos := rfl
@[simp] theorem closeNode_end (n : Node) (e : Nat) (d : List Nat) :
    (closeNode n e d).end_ = e := rfl
@[simp] theorem closeNode_up (n : Node) (e : Nat) (d : List Nat) :
    (closeNode n e d).up = n.up := rfl
@[simp] theorem closeNode_down (n : Node) (e : Nat) (d : List Nat) :
    (closeNode n e d).down = d := rfl

theorem isProc_of_isMid {k : NodeKind} (h : isMid k) : isProc k := Or.inr h

theorem isMid_not_start {k : NodeKind} (h : isMid k) : k ≠ .startNode := by
  rcases h with h | h | h | h <;> subst h <;> intro hc <;> cases hc

theorem isMid_not_end {k : NodeKind} (h : isMid k) : k ≠ .endNode := by
  rcases h with h | h | h | h <;> subst h <;> intro hc <;> cases hc

theorem isMid_not_any {k : NodeKind} (h : isMid k) : k ≠ .anyNode := by
  rcases h with h | h | h | h <;> subst h <;> intro hc <;> cases hc

theorem inv_init (ns0 : List Node) : Inv ns0 ns0 0 [] where
  hlen := rfl
  hbase := fun _ => ⟨rfl, rfl, rfl, rfl⟩
  huntouched := fun _ _ => rfl
  hstack_lt := fun _ hs => absurd hs (List.not_mem_nil _)
  hstack_sorted := List.Pairwise.nil
  hstack_state := Or.inl ⟨rfl, rfl⟩
  hstack_props := fun _ hs => absurd hs (List.not_mem_nil _)
  hstack_chain := trivial
  hproc_pos := fun i hi => absurd hi (Nat.not_lt_zero i)
  hproc_end1 := fun i hi => absurd hi (Nat.not_lt_zero i)
  hproc_other := fun i hi => absurd hi (Nat.not_lt_zero i)
  hclosed := fun i hi => absurd hi (Nat.not_lt_zero i)
  hsep := fun i hi => absurd hi (Nat.not_lt_zero i)
  hup := fun i hi => absurd hi (Nat.not_lt_zero i)
  hclosed_parent := fun i hi => absurd hi (Nat.not_lt_zero i)
  hsib := fun _ k _ _ hk => absurd hk (Nat.not_lt_zero k)
  hfresh := fun k hk => absurd hk (Nat.not_lt_zero k)

/-- Invariant preservation for a leaf event (Attr, Text, Comment or
ProcInst) at `pos`. -/
theorem inv_step_leaf (ns0 ns : List Node) (pos : Nat) (stack : List Nat)
    (inv : Inv ns0 ns pos stack)
    (hk0 : (getN ns0 0).kind = .startNode)
    (hpos : pos < ns0.length)
    (hk : isMid (getN ns pos).kind) :
    Inv ns0 (ns.set pos (markLeaf (getN ns pos) pos stack.head?))
      (pos + 1) stack := by
  have hposn : pos < ns.length := by rw [inv.hlen]; exact hpos
  have hstate : 0 < pos ∧ ∃ pre, stack = pre ++ [0] := by
    rcases inv.hstack_state with ⟨hp0, -⟩ | h
    · exfalso
      have h00 : getN ns pos = getN ns0 0 := by
        rw [hp0]; exact inv.huntouched 0 (by omega)
      rw [h00, hk0] at hk
      exact isMid_not_start hk rfl
    · exact h
  cases stack with
  | nil =>
    exfalso
    obtain ⟨-, pre, hpre⟩ := hstate
    exact absurd hpre.symm (by simp)
  | cons u rest =>
  have hgs : getN (ns.set pos (markLeaf (getN ns pos) pos (u :: rest).head?))
      pos = markLeaf (getN ns pos) pos (u :: rest).head? :=
    getN_set_self _ _ _ hposn
  have hgo : ∀ i, i ≠ pos →
      getN (ns.set pos (markLeaf (getN ns pos) pos (u :: rest).head?)) i =
        getN ns i :=
    fun i hi => getN_set_ne _ _ _ _ (fun h => hi h.symm)
  have humem : u ∈ u :: rest := by simp
  refine { hlen := ?hlen, hbase := ?hbase, huntouched := ?huntouched,
           hstack_lt := ?hstack_lt, hstack_sorted := ?hstack_sorted,
           hstack_state := ?hstack_state, hstack_props := ?hstack_props,
           hstack_chain := ?hstack_chain, hproc_pos := ?hproc_pos,
           hproc_end1 := ?hproc_end1, hproc_other := ?hproc_other,
           hclosed := ?hclosed, hsep := ?hsep, hup := ?hup,
           hclosed_parent := ?hclosed_parent, hsib := ?hsib,
           hfresh := ?hfresh }
  case hlen => rw [List.length_set]; exact inv.hlen
  case hbase =>
    intro i
    by_cases hi : i = pos
    · subst hi
      rw [hgs]
      simpa using inv.hbase i
    · rw [hgo i hi]; exact inv.hbase i
  case huntouched =>
    intro i hi
    rw [hgo i (by omega)]
    exact inv.huntouched i (by omega)
  case hstack_lt =>
    intro s hs
    exact Nat.lt_succ_of_lt (inv.hstack_lt s hs)
  case hstack_sorted => exact inv.hstack_sorted
  case hstack_state => exact Or.inr ⟨Nat.succ_pos pos, hstate.2⟩
  case hstack_props =>
    intro s hs
    rw [hgo s (by have := inv.hstack_lt s hs; omega)]
    exact inv.hstack_props s hs
  case hstack_chain =>
    exact stackParents_congr ns _ _
      (fun s hs => by
        rw [hgo s (by have := inv.hstack_lt s hs; omega)])
      inv.hstack_chain
  case hproc_pos =>
    intro i hi hproci
    by_cases hip : i = pos
    · subst hip; rw [hgs]; simp
    · rw [hgo i hip] at hproci ⊢
      exact inv.hproc_pos i (by omega) hproci
  case hproc_end1 =>
    intro i hi hmidi
    by_cases hip : i = pos
    · subst hip; rw [hgs]; simp
    · rw [hgo i hip] at hmidi ⊢
      exact inv.hproc_end1 i (by omega) hmidi
  case hproc_other =>
    intro i hi hor
    by_cases hip : i = pos
    · subst hip
      rw [hgs] at hor
      simp only [markLeaf_kind] at hor
      exfalso
      rcases hor with ho | ho
      · exact isMid_not_end hk ho
      · exact isMid_not_any hk ho
    · rw [hgo i hip] at hor ⊢
      exact inv.hproc_other i (by omega) hor
  case hclosed =>
    intro i hi hkind hnin
    by_cases hip : i = pos
    · subst hip
      rw [hgs] at hkind
      simp only [markLeaf_kind] at hkind
      exact absurd hkind (isMid_not_start hk)
    · rw [hgo i hip] at hkind ⊢
      have hc := inv.hclosed i (by omega) hkind hnin
      refine ⟨hc.1, by omega, ?_⟩
      rw [hc.2.2]
      exact (downFilter_congr _ ns i _
        (fun j hj1 hj2 => hgo j (by omega))).symm
  case hsep =>
    intro i hi hkind hnin s hs
    by_cases hip : i = pos
    · subst hip
      rw [hgs] at hkind
      simp only [markLeaf_kind] at hkind
      exact absurd hkind (isMid_not_start hk)
    · rw [hgo i hip] at hkind ⊢
      exact inv.hsep i (by omega) hkind hnin s hs
  case hup =>
    intro i hi hproci
    by_cases hip : i = pos
    · subst hip
      right
      refine ⟨hstate.1, u, ?_, inv.hstack_lt u humem, ?_, Or.inl humem⟩
      · rw [hgs]; rfl
      · rw [hgo u (by have := inv.hstack_lt u humem; omega)]
        exact (inv.hstack_props u humem).1
    · rw [hgo i hip] at hproci
      rcases inv.hup i (by omega) hproci with ⟨hi0, hupn⟩ |
        ⟨hi0, u', hup', hul, huk, hor⟩
      · exact Or.inl ⟨hi0, by rw [hgo i hip]; exact hupn⟩
      · refine Or.inr ⟨hi0, u', by rw [hgo i hip]; exact hup', hul, ?_, ?_⟩
        · rw [hgo u' (by omega)]; exact huk
        · rcases hor with hmem | hend
          · exact Or.inl hmem
          · exact Or.inr (by rw [hgo u' (by omega)]; exact hend)
  case hclosed_parent =>
    intro i hi hkind hnin u' hup'
    by_cases hip : i = pos
    · subst hip
      rw [hgs] at hkind
      simp only [markLeaf_kind] at hkind
      exact absurd hkind (isMid_not_start hk)
    · rw [hgo i hip] at hkind hup'
      have hu'lt : u' < i := by
        rcases inv.hup i (by omega) (Or.inl hkind) with ⟨-, hnone⟩ |
          ⟨-, u'', hsome, hlt, -, -⟩
        · rw [hnone] at hup'; cases hup'
        · rw [hsome] at hup'; cases hup'; exact hlt
      rcases inv.hclosed_parent i (by omega) hkind hnin u' hup' with
        hmem | hend
      · exact Or.inl hmem
      · refine Or.inr ?_
        rw [hgo i hip, hgo u' (by omega)]
        exact hend
  case hsib =>
    intro j k u' hjk hk1 hkindj hprock hupj hupk
    by_cases hkp : k = pos
    · subst hkp
      rw [hgs] at hupk
      simp only [markLeaf_up] at hupk
      have huu : u = u' := Option.some.inj hupk
      subst huu
      rw [hgo j (by omega)] at hkindj hupj
      have hjnin : j ∉ u :: rest := by
        intro hjs
        have hlt := stackParents_up_lt ns (u :: rest) inv.hstack_chain
          inv.hstack_sorted j hjs u hupj
        rcases List.mem_cons.mp hjs with hje | hje
        · omega
        · have := List.rel_of_pairwise_cons inv.hstack_sorted hje
          omega
      have hc := inv.hclosed j (by omega) hkindj hjnin
      exact ⟨hjnin, by rw [hgo j (by omega)]; omega⟩
    · rw [hgo j (by omega)] at hkindj hupj
      rw [hgo k hkp] at hprock hupk
      have hss := inv.hsib j k u' hjk (by omega) hkindj hprock hupj hupk
      exact ⟨hss.1, by rw [hgo j (by omega)]; exact hss.2⟩
  case hfresh =>
    intro k hk1 u' hupk s hs hus
    by_cases hkp : k = pos
    · subst hkp
      rw [hgs] at hupk
      simp only [markLeaf_up] at hupk
      have huu : u = u' := Option.some.inj hupk
      subst huu
      rcases List.mem_cons.mp hs with hse | hse
      · omega
      · have := List.rel_of_pairwise_cons inv.hstack_sorted hse
        omega
    · rw [hgo k hkp] at hupk
      have := inv.hfresh k (by omega) u' hupk s hs hus
      omega

/-- Pushing an element whose recorded parent is the old stack top
extends the parent chain. -/
theorem stackParents_push (ns : List Node) (p : Nat) (stack : List Nat)
    (hup : (getN ns p).up = stack.head?)
    (hrest : stackParents ns stack) : stackParents ns (p :: stack) := by
  cases stack with
  | nil => simpa [stackParents] using hup
  | cons u rest => exact ⟨by simpa using hup, hrest⟩

/-- Invariant preservation for a Start event at `pos`: the node is
marked and pushed. -/
theorem inv_step_start (ns0 ns : List Node) (pos : Nat) (stack : List Nat)
    (inv : Inv ns0 ns pos stack)
    (hdef : ∀ i, defaultLinks (getN ns0 i))
    (hpos : pos < ns0.length)
    (hk : (getN ns pos).kind = .startNode) :
    Inv ns0 (ns.set pos (markStart (getN ns pos) pos stack.head?))
      (pos + 1) (pos :: stack) := by
  have hposn : pos < ns.length := by rw [inv.hlen]; exact hpos
  have hgs : getN (ns.set pos (markStart (getN ns pos) pos stack.head?))
      pos = markStart (getN ns pos) pos stack.head? :=
    getN_set_self _ _ _ hposn
  have hgo : ∀ i, i ≠ pos →
      getN (ns.set pos (markStart (getN ns pos) pos stack.head?)) i =
        getN ns i :=
    fun i hi => getN_set_ne _ _ _ _ (fun h => hi h.symm)
  have hn0 : getN ns pos = getN ns0 pos := inv.huntouched pos (le_refl pos)
  refine { hlen := ?hlen, hbase := ?hbase, huntouched := ?huntouched,
           hstack_lt := ?hstack_lt, hstack_sorted := ?hstack_sorted,
           hstack_state := ?hstack_state, hstack_props := ?hstack_props,
           hstack_chain := ?hstack_chain, hproc_pos := ?hproc_pos,
           hproc_end1 := ?hproc_end1, hproc_other := ?hproc_other,
           hclosed := ?hclosed, hsep := ?hsep, hup := ?hup,
           hclosed_parent := ?hclosed_parent, hsib := ?hsib,
           hfresh := ?hfresh }
  case hlen => rw [List.length_set]; exact inv.hlen
  case hbase =>
    intro i
    by_cases hi : i = pos
    · subst hi
      rw [hgs]
      simpa using inv.hbase i
    · rw [hgo i hi]; exact inv.hbase i
  case huntouched =>
    intro i hi
    rw [hgo i (by omega)]
    exact inv.huntouched i (by omega)
  case hstack_lt =>
    intro s hs
    rcases List.mem_cons.mp hs with hse | hse
    · omega
    · have := inv.hstack_lt s hse; omega
  case hstack_sorted =>
    exact List.pairwise_cons.mpr
      ⟨fun s hs => inv.hstack_lt s hs, inv.hstack_sorted⟩
  case hstack_state =>
    refine Or.inr ⟨Nat.succ_pos pos, ?_⟩
    rcases inv.hstack_state with ⟨hp0, hse⟩ | ⟨-, pre, hpre⟩
    · rw [hse, hp0]; exact ⟨[], rfl⟩
    · exact ⟨pos :: pre, by rw [hpre]; simp⟩
  case hstack_props =>
    intro s hs
    rcases List.mem_cons.mp hs with hse | hse
    · rw [hse, hgs]
      refine ⟨by simpa using hk, by simp, ?_⟩
      simp only [markStart_end]
      rw [hn0]
      exact (hdef pos).2.1
    · rw [hgo s (by have := inv.hstack_lt s hse; omega)]
      exact inv.hstack_props s hse
  case hstack_chain =>
    refine stackParents_push _ pos stack ?_ ?_
    · rw [hgs]; rfl
    · exact stackParents_congr ns _ stack
        (fun s hs => by rw [hgo s (by have := inv.hstack_lt s hs; omega)])
        inv.hstack_chain
  case hproc_pos =>
    intro i hi hproci
    by_cases hip : i = pos
    · subst hip; rw [hgs]; simp
    · rw [hgo i hip] at hproci ⊢
      exact inv.hproc_pos i (by omega) hproci
  case hproc_end1 =>
    intro i hi hmidi
    by_cases hip : i = pos
    · subst hip
      rw [hgs] at hmidi
      simp only [markStart_kind] at hmidi
      exact absurd hk (isMid_not_start hmidi)
    · rw [hgo i hip] at hmidi ⊢
      exact inv.hproc_end1 i (by omega) hmidi
  case hproc_other =>
    intro i hi hor
    by_cases hip : i = pos
    · subst hip
      rw [hgs] at hor
      simp only [markStart_kind, hk] at hor
      exfalso
      rcases hor with ho | ho <;> cases ho
    · rw [hgo i hip] at hor ⊢
      exact inv.hproc_other i (by omega) hor
  case hclosed =>
    intro i hi hkind hnin
    by_cases hip : i = pos
    · subst hip
      exact absurd (List.mem_cons_self _ _) hnin
    · rw [hgo i hip] at hkind ⊢
      have hnin' : i ∉ stack := fun hmem => hnin (List.mem_cons_of_mem _ hmem)
      have hc := inv.hclosed i (by omega) hkind hnin'
      refine ⟨hc.1, by omega, ?_⟩
      rw [hc.2.2]
      exact (downFilter_congr _ ns i _
        (fun j hj1 hj2 => hgo j (by omega))).symm
  case hsep =>
    intro i hi hkind hnin s hs
    by_cases hip : i = pos
    · subst hip
      exact absurd (List.mem_cons_self _ _) hnin
    · rw [hgo i hip] at hkind ⊢
      have hnin' : i ∉ stack := fun hmem => hnin (List.mem_cons_of_mem _ hmem)
      have hc := inv.hclosed i (by omega) hkind hnin'
      rcases List.mem_cons.mp hs with hse | hse
      · subst hse
        exact Or.inr (by omega)
      · exact inv.hsep i (by omega) hkind hnin' s hse
  case hup =>
    intro i hi hproci
    by_cases hip : i = pos
    · subst hip
      cases hhd : stack.head? with
      | none =>
        have hse : stack = [] := List.head?_eq_none_iff.mp hhd
        have hp0 : i = 0 := by
          rcases inv.hstack_state with ⟨hp0, -⟩ | ⟨-, pre, hpre⟩
          · exact hp0
          · rw [hse] at hpre
            exact absurd hpre.symm (by simp)
        left
        refine ⟨hp0, ?_⟩
        rw [← hhd, hgs]
        simp
      | some u =>
        have humem : u ∈ stack := by
          rw [List.eq_cons_of_mem_head? hhd]; simp
        have hult := inv.hstack_lt u humem
        right
        refine ⟨by omega, u, ?_, hult, ?_,
          Or.inl (List.mem_cons_of_mem _ humem)⟩
        · rw [← hhd, hgs]; simp
        · rw [← hhd, hgo u (by omega)]
          exact (inv.hstack_props u humem).1
    · rw [hgo i hip] at hproci
      rcases inv.hup i (by omega) hproci with ⟨hi0, hupn⟩ |
        ⟨hi0, u', hup', hul, huk, hor⟩
      · exact Or.inl ⟨hi0, by rw [hgo i hip]; exact hupn⟩
      · refine Or.inr ⟨hi0, u', by rw [hgo i hip]; exact hup', hul, ?_, ?_⟩
        · rw [hgo u' (by omega)]; exact huk
        · rcases hor with hmem | hend
          · exact Or.inl (List.mem_cons_of_mem _ hmem)
          · exact Or.inr (by rw [hgo u' (by omega)]; exact hend)
  case hclosed_parent =>
    intro i hi hkind hnin u' hup'
    by_cases hip : i = pos
    · subst hip
      exact absurd (List.mem_cons_self _ _) hnin
    · rw [hgo i hip] at hkind hup'
      have hnin' : i ∉ stack := fun hmem => hnin (List.mem_cons_of_mem _ hmem)
      have hu'lt : u' < i := by
        rcases inv.hup i (by omega) (Or.inl hkind) with ⟨-, hnone⟩ |
          ⟨-, u'', hsome, hlt, -, -⟩
        · rw [hnone] at hup'; cases hup'
        · rw [hsome] at hup'; cases hup'; exact hlt
      rcases inv.hclosed_parent i (by omega) hkind hnin' u' hup' with
        hmem | hend
      · exact Or.inl (List.mem_cons_of_mem _ hmem)
      · refine Or.inr ?_
        rw [hgo i hip, hgo u' (by omega)]
        exact hend
  case hsib =>
    intro j k u' hjk hk1 hkindj hprock hupj hupk
    by_cases hkp : k = pos
    · subst hkp
      rw [hgs] at hupk
      simp only [markStart_up] at hupk
      have hst : stack = u' :: stack.tail := List.eq_cons_of_mem_head? hupk
      rw [hgo j (by omega)] at hkindj hupj
      have hjnin : j ∉ stack := by
        intro hjs
        have hlt := stackParents_up_lt ns stack inv.hstack_chain
          inv.hstack_sorted j hjs u' hupj
        rw [hst] at hjs
        rcases List.mem_cons.mp hjs with hje | hje
        · omega
        · have := List.rel_of_pairwise_cons (hst ▸ inv.hstack_sorted) hje
          omega
      have hc := inv.hclosed j (by omega) hkindj hjnin
      refine ⟨?_, by rw [hgo j (by omega)]; omega⟩
      intro hmem
      rcases List.mem_cons.mp hmem with hje | hje
      · omega
      · exact hjnin hje
    · rw [hgo j (by omega)] at hkindj hupj
      rw [hgo k hkp] at hprock hupk
      have hss := inv.hsib j k u' hjk (by omega) hkindj hprock hupj hupk
      refine ⟨?_, by rw [hgo j (by omega)]; exact hss.2⟩
      intro hmem
      rcases List.mem_cons.mp hmem with hje | hje
      · omega
      · exact hss.1 hje
  case hfresh =>
    intro k hk1 u' hupk s hs hus
    rcases List.mem_cons.mp hs with hse | hse
    · subst hse; omega
    · by_cases hkp : k = pos
      · subst hkp
        rw [hgs] at hupk
        simp only [markStart_up] at hupk
        have hst : stack = u' :: stack.tail := List.eq_cons_of_mem_head? hupk
        rw [hst] at hse
        rcases List.mem_cons.mp hse with hse2 | hse2
        · omega
        · have := List.rel_of_pairwise_cons (hst ▸ inv.hstack_sorted) hse2
          omega
      · rw [hgo k hkp] at hupk
        have := inv.hfresh k (by omega) u' hupk s hse hus
        omega

theorem isProc_not_end {k : NodeKind} (h : isProc k) : k ≠ .endNode := by
  rcases h with h | h | h | h | h <;> subst h <;> intro hc <;> cases hc

theorem isProc_not_any {k : NodeKind} (h : isProc k) : k ≠ .anyNode := by
  rcases h with h | h | h | h | h <;> subst h <;> intro hc <;> cases hc

theorem stackParents_tail (ns : List Node) (s : Nat) (rest : List Nat)
    (h : stackParents ns (s :: rest)) : stackParents ns rest := by
  cases rest with
  | nil => trivial
  | cons s' r => exact h.2

/-- Invariant preservation for an AnyNode entry (never produced by the
adapters; the walk skips it). -/
theorem inv_step_any (ns0 ns : List Node) (pos : Nat) (stack : List Nat)
    (inv : Inv ns0 ns pos stack)
    (hk0 : (getN ns0 0).kind = .startNode)
    (hdef : ∀ i, defaultLinks (getN ns0 i))
    (hpos : pos < ns0.length)
    (hk : (getN ns pos).kind = .anyNode) :
    Inv ns0 ns (pos + 1) stack := by
  have hstate : 0 < pos ∧ ∃ pre, stack = pre ++ [0] := by
    rcases inv.hstack_state with ⟨hp0, -⟩ | h
    · exfalso
      have h00 : getN ns pos = getN ns0 0 := by
        rw [hp0]; exact inv.huntouched 0 (by omega)
      rw [h00, hk0] at hk
      cases hk
    · exact h
  have hn0 : getN ns pos = getN ns0 pos := inv.huntouched pos (le_refl pos)
  refine { hlen := inv.hlen, hbase := inv.hbase, huntouched := ?huntouched,
           hstack_lt := ?hstack_lt, hstack_sorted := inv.hstack_sorted,
           hstack_state := Or.inr ⟨by omega, hstate.2⟩,
           hstack_props := inv.hstack_props,
           hstack_chain := inv.hstack_chain, hproc_pos := ?hproc_pos,
           hproc_end1 := ?hproc_end1, hproc_other := ?hproc_other,
           hclosed := ?hclosed, hsep := ?hsep, hup := ?hup,
           hclosed_parent := ?hclosed_parent, hsib := ?hsib,
           hfresh := ?hfresh }
  case huntouched => exact fun i hi => inv.huntouched i (by omega)
  case hstack_lt => exact fun s hs => Nat.lt_succ_of_lt (inv.hstack_lt s hs)
  case hproc_pos =>
    intro i hi hproci
    by_cases hip : i = pos
    · subst hip; exact absurd hk (isProc_not_any hproci)
    · exact inv.hproc_pos i (by omega) hproci
  case hproc_end1 =>
    intro i hi hmidi
    by_cases hip : i = pos
    · subst hip; exact absurd hk (isMid_not_any hmidi)
    · exact inv.hproc_end1 i (by omega) hmidi
  case hproc_other =>
    intro i hi hor
    by_cases hip : i = pos
    · subst hip; exact hn0
    · exact inv.hproc_other i (by omega) hor
  case hclosed =>
    intro i hi hkind hnin
    by_cases hip : i = pos
    · subst hip; rw [hkind] at hk; cases hk
    · have hc := inv.hclosed i (by omega) hkind hnin
      exact ⟨hc.1, by omega, hc.2.2⟩
  case hsep =>
    intro i hi hkind hnin s hs
    by_cases hip : i = pos
    · subst hip; rw [hkind] at hk; cases hk
    · exact inv.hsep i (by omega) hkind hnin s hs
  case hup =>
    intro i hi hproci
    by_cases hip : i = pos
    · subst hip; exact absurd hk (isProc_not_any hproci)
    · exact inv.hup i (by omega) hproci
  case hclosed_parent =>
    intro i hi hkind hnin u' hup'
    by_cases hip : i = pos
    · subst hip; rw [hkind] at hk; cases hk
    · exact inv.hclosed_parent i (by omega) hkind hnin u' hup'
  case hsib =>
    intro j k u' hjk hk1 hkindj hprock hupj hupk
    by_cases hkp : k = pos
    · subst hkp; exact absurd hk (isProc_not_any hprock)
    · exact inv.hsib j k u' hjk (by omega) hkindj hprock hupj hupk
  case hfresh =>
    intro k hk1 u' hupk s hs hus
    by_cases hkp : k = pos
    · subst hkp
      rw [hn0, (hdef _).2.2.1] at hupk
      cases hupk
    · exact inv.hfresh k (by omega) u' hupk s hs hus

/-- Invariant preservation for an End event at `pos` that does not
empty the stack: the top is popped, closed and given its children. -/
theorem inv_step_end (ns0 ns : List Node) (pos top : Nat)
    (stack' : List Nat)
    (inv : Inv ns0 ns pos (top :: stack'))
    (hdef : ∀ i, defaultLinks (getN ns0 i))
    (hpos : pos < ns0.length)
    (hk : (getN ns pos).kind = .endNode)
    (hs : stack' ≠ []) :
    Inv ns0
      (ns.set top
        (closeNode (getN ns top) pos (downFilter ns (getN ns top).pos pos)))
      (pos + 1) stack' := by
  obtain ⟨v, tail, rfl⟩ : ∃ v tail, stack' = v :: tail := by
    cases stack' with
    | nil => exact absurd rfl hs
    | cons v tail => exact ⟨v, tail, rfl⟩
  have htopmem : top ∈ top :: v :: tail := List.mem_cons_self _ _
  have htoplt : top < pos := inv.hstack_lt top htopmem
  have htopn : top < ns.length := by
    rw [inv.hlen]; omega
  have hprops := inv.hstack_props top htopmem
  have hpt : (getN ns top).pos = top := hprops.2.1
  have hgs : getN (ns.set top
      (closeNode (getN ns top) pos (downFilter ns (getN ns top).pos pos)))
      top = closeNode (getN ns top) pos (downFilter ns (getN ns top).pos pos) :=
    getN_set_self _ _ _ htopn
  have hgo : ∀ i, i ≠ top →
      getN (ns.set top
        (closeNode (getN ns top) pos (downFilter ns (getN ns top).pos pos)))
        i = getN ns i :=
    fun i hi => getN_set_ne _ _ _ _ (fun h => hi h.symm)
  have hupall : ∀ j, (getN (ns.set top
      (closeNode (getN ns top) pos (downFilter ns (getN ns top).pos pos)))
      j).up = (getN ns j).up := by
    intro j
    by_cases hj : j = top
    · subst hj; rw [hgs]; simp
    · rw [hgo j hj]
  have hkindall : ∀ j, (getN (ns.set top
      (closeNode (getN ns top) pos (downFilter ns (getN ns top).pos pos)))
      j).kind = (getN ns j).kind := by
    intro j
    by_cases hj : j = top
    · subst hj; rw [hgs]; simp
    · rw [hgo j hj]
  have hchain : (getN ns top).up = some v ∧ stackParents ns (v :: tail) :=
    inv.hstack_chain
  have hvtop : v < top :=
    List.rel_of_pairwise_cons inv.hstack_sorted (List.mem_cons_self _ _)
  refine { hlen := ?hlen, hbase := ?hbase, huntouched := ?huntouched,
           hstack_lt := ?hstack_lt, hstack_sorted := ?hstack_sorted,
           hstack_state := ?hstack_state, hstack_props := ?hstack_props,
           hstack_chain := ?hstack_chain, hproc_pos := ?hproc_pos,
           hproc_end1 := ?hproc_end1, hproc_other := ?hproc_other,
           hclosed := ?hclosed, hsep := ?hsep, hup := ?hup,
           hclosed_parent := ?hclosed_parent, hsib := ?hsib,
           hfresh := ?hfresh }
  case hlen => rw [List.length_set]; exact inv.hlen
  case hbase =>
    intro i
    by_cases hi : i = top
    · subst hi
      rw [hgs]
      simpa using inv.hbase i
    · rw [hgo i hi]; exact inv.hbase i
  case huntouched =>
    intro i hi
    rw [hgo i (by omega)]
    exact inv.huntouched i (by omega)
  case hstack_lt =>
    intro s hsm
    have := inv.hstack_lt s (List.mem_cons_of_mem _ hsm)
    omega
  case hstack_sorted => exact List.Pairwise.of_cons inv.hstack_sorted
  case hstack_state =>
    refine Or.inr ⟨by omega, ?_⟩
    rcases inv.hstack_state with ⟨-, habs⟩ | ⟨-, pre, hpre⟩
    · cases habs
    · cases pre with
      | nil =>
        exfalso
        have := List.cons.injEq top (v :: tail) 0 [] ▸ hpre
        simp at hpre
      | cons p pre' =>
        simp only [List.cons_append, List.cons.injEq] at hpre
        exact ⟨pre', hpre.2⟩
  case hstack_props =>
    intro s hsm
    have hslt : s < top :=
      List.rel_of_pairwise_cons inv.hstack_sorted hsm
    rw [hgo s (by omega)]
    exact inv.hstack_props s (List.mem_cons_of_mem _ hsm)
  case hstack_chain =>
    refine stackParents_congr ns _ (v :: tail) ?_ hchain.2
    intro s hsm
    have hslt : s < top :=
      List.rel_of_pairwise_cons inv.hstack_sorted hsm
    rw [hgo s (by omega)]
  case hproc_pos =>
    intro i hi hproci
    rw [hkindall i] at hproci
    by_cases hip : i = pos
    · subst hip; exact absurd hk (isProc_not_end hproci)
    · by_cases hit : i = top
      · subst hit
        rw [hgs]
        simpa using hpt
      · rw [hgo i hit]
        exact inv.hproc_pos i (by omega) hproci
  case hproc_end1 =>
    intro i hi hmidi
    rw [hkindall i] at hmidi
    by_cases hip : i = pos
    · subst hip; exact absurd hk (isMid_not_end hmidi)
    · by_cases hit : i = top
      · subst hit
        exact absurd hprops.1 (isMid_not_start hmidi)
      · rw [hgo i hit]
        exact inv.hproc_end1 i (by omega) hmidi
  case hproc_other =>
    intro i hi hor
    rw [hkindall i] at hor
    have hit : i ≠ top := by
      intro hcon
      subst hcon
      rcases hor with ho | ho <;> rw [hprops.1] at ho <;> cases ho
    rw [hgo i hit]
    by_cases hip : i = pos
    · subst hip
      exact inv.huntouched i (le_refl i)
    · exact inv.hproc_other i (by omega) hor
  case hclosed =>
    intro i hi hkind hnin
    rw [hkindall i] at hkind
    by_cases hit : i = top
    · subst hit
      rw [hgs]
      refine ⟨by simpa using htoplt, by simp, ?_⟩
      simp only [closeNode_down, closeNode_end]
      have hcong : downFilter
          (ns.set i (closeNode (getN ns i) pos (downFilter ns (getN ns i).pos pos)))
          i pos = downFilter ns i pos :=
        downFilter_congr _ ns i pos (fun j hj1 hj2 => hgo j (by omega))
      rw [hcong, hpt]
    · have hip : i < pos := by
        rcases Nat.lt_succ_iff_lt_or_eq.mp hi with h | h
        · exact h
        · exfalso; subst h; rw [hkind] at hk; cases hk
      have hnin' : i ∉ top :: v :: tail := by
        intro hmem
        rcases List.mem_cons.mp hmem with hje | hje
        · exact hit hje
        · exact hnin hje
      have hc := inv.hclosed i hip hkind hnin'
      have hseptop := inv.hsep i hip hkind hnin' top htopmem
      rw [hgo i hit]
      refine ⟨hc.1, by omega, ?_⟩
      rw [hc.2.2]
      refine (downFilter_congr _ ns i _ ?_).symm
      intro j hj1 hj2
      refine hgo j ?_
      rcases hseptop with h | h <;> omega
  case hsep =>
    intro i hi hkind hnin s hsm
    rw [hkindall i] at hkind
    have hslt : s < top :=
      List.rel_of_pairwise_cons inv.hstack_sorted hsm
    by_cases hit : i = top
    · subst hit
      exact Or.inl hslt
    · have hip : i < pos := by
        rcases Nat.lt_succ_iff_lt_or_eq.mp hi with h | h
        · exact h
        · exfalso; subst h; rw [hkind] at hk; cases hk
      have hnin' : i ∉ top :: v :: tail := by
        intro hmem
        rcases List.mem_cons.mp hmem with hje | hje
        · exact hit hje
        · exact hnin hje
      rw [hgo i hit]
      exact inv.hsep i hip hkind hnin' s (List.mem_cons_of_mem _ hsm)
  case hup =>
    intro i hi hproci
    rw [hkindall i] at hproci
    have hip : i < pos := by
      rcases Nat.lt_succ_iff_lt_or_eq.mp hi with h | h
      · exact h
      · exfalso; subst h; exact isProc_not_end hproci hk
    rcases inv.hup i hip hproci with ⟨hi0, hupn⟩ |
      ⟨hi0, u, hup', hul, huk, hor⟩
    · exact Or.inl ⟨hi0, by rw [hupall i]; exact hupn⟩
    · refine Or.inr ⟨hi0, u, by rw [hupall i]; exact hup', hul,
        by rw [hkindall u]; exact huk, ?_⟩
      rcases hor with hmem | hend
      · rcases List.mem_cons.mp hmem with hje | hje
        · subst hje
          refine Or.inr ?_
          rw [hgs]
          simpa using hip
        · exact Or.inl hje
      · have hut : u ≠ top := by
          intro hcon
          subst hcon
          rw [hprops.2.2] at hend
          omega
        exact Or.inr (by rw [hgo u hut]; exact hend)
  case hclosed_parent =>
    intro i hi hkind hnin u hup'
    rw [hkindall i] at hkind
    rw [hupall i] at hup'
    by_cases hit : i = top
    · subst hit
      rw [hchain.1] at hup'
      cases hup'
      exact Or.inl (List.mem_cons_self _ _)
    · have hip : i < pos := by
        rcases Nat.lt_succ_iff_lt_or_eq.mp hi with h | h
        · exact h
        · exfalso; subst h; rw [hkind] at hk; cases hk
      have hnin' : i ∉ top :: v :: tail := by
        intro hmem
        rcases List.mem_cons.mp hmem with hje | hje
        · exact hit hje
        · exact hnin hje
      have hc := inv.hclosed i hip hkind hnin'
      rcases inv.hclosed_parent i hip hkind hnin' u hup' with hmem | hend
      · rcases List.mem_cons.mp hmem with hje | hje
        · subst hje
          refine Or.inr ?_
          rw [hgo i hit, hgs]
          simp only [closeNode_end]
          omega
        · exact Or.inl hje
      · have hut : u ≠ top := by
          intro hcon
          subst hcon
          rw [hprops.2.2] at hend
          omega
        refine Or.inr ?_
        rw [hgo i hit, hgo u hut]
        exact hend
  case hsib =>
    intro j k u hjk hk1 hkindj hprock hupj hupk
    rw [hkindall j] at hkindj
    rw [hkindall k] at hprock
    rw [hupall j] at hupj
    rw [hupall k] at hupk
    have hkp : k < pos := by
      rcases Nat.lt_succ_iff_lt_or_eq.mp hk1 with h | h
      · exact h
      · exfalso; subst h; exact isProc_not_end hprock hk
    by_cases hjt : j = top
    · subst hjt
      exfalso
      rw [hchain.1] at hupj
      cases hupj
      have := inv.hfresh k hkp v hupk j htopmem hvtop
      omega
    · have hss := inv.hsib j k u hjk hkp hkindj hprock hupj hupk
      refine ⟨?_, by rw [hgo j hjt]; exact hss.2⟩
      intro hmem
      exact hss.1 (List.mem_cons_of_mem _ hmem)
  case hfresh =>
    intro k hk1 u hupk s hsm hus
    rw [hupall k] at hupk
    by_cases hkp : k = pos
    · subst hkp
      rw [inv.huntouched k (le_refl k), (hdef k).2.2.1] at hupk
      cases hupk
    · exact inv.hfresh k (by omega) u hupk s
        (List.mem_cons_of_mem _ hsm) hus

theorem kind_trichotomy (k : NodeKind) :
    isProc k ∨ k = .endNode ∨ k = .anyNode := by
  cases k with
  | anyNode => exact Or.inr (Or.inr rfl)
  | startNode => exact Or.inl (Or.inl rfl)
  | endNode => exact Or.inr (Or.inl rfl)
  | attrNode => exact Or.inl (Or.inr (Or.inl rfl))
  | textNode => exact Or.inl (Or.inr (Or.inr (Or.inl rfl)))
  | commentNode => exact Or.inl (Or.inr (Or.inr (Or.inr (Or.inl rfl))))
  | procInstNode => exact Or.inl (Or.inr (Or.inr (Or.inr (Or.inr rfl))))

/-- What holds of the store of a successfully returned tree.  The
root is entry 0 (the synthetic Start), its range end
`(getN st 0).end_` delimits the constructed tree, and the recorded
positions, ranges, parents and children lists satisfy the structural
invariants of the walk. -/
structure Built (ns0 st : List Node) : Prop where
  hlen : st.length = ns0.length
  hbase : ∀ i, (getN st i).kind = (getN ns0 i).kind ∧
    (getN st i).name = (getN ns0 i).name ∧
    (getN st i).attr = (getN ns0 i).attr ∧
    (getN st i).text = (getN ns0 i).text
  root_kind : (getN st 0).kind = .startNode
  root_pos : (getN st 0).pos = 0
  root_up : (getN st 0).up = none
  pend_lt : 0 < (getN st 0).end_ ∧ (getN st 0).end_ < st.length
  hpos : ∀ i, i < (getN st 0).end_ → isProc (getN st i).kind →
    (getN st i).pos = i
  hend1 : ∀ i, i < (getN st 0).end_ → isMid (getN st i).kind →
    (getN st i).end_ = i + 1
  hclosed : ∀ i, i < (getN st 0).end_ → (getN st i).kind = .startNode →
    i < (getN st i).end_ ∧ (getN st i).end_ ≤ (getN st 0).end_ ∧
    (getN st i).down = downFilter st i (getN st i).end_
  hup : ∀ i, i < (getN st 0).end_ → isProc (getN st i).kind →
    (i = 0 ∧ (getN st i).up = none) ∨
    (0 < i ∧ ∃ u, (getN st i).up = some u ∧ u < i ∧
      (getN st u).kind = .startNode ∧ i < (getN st u).end_ ∧
      ((getN st i).kind = .startNode →
        (getN st i).end_ < (getN st u).end_))
  hup_none : ∀ i,
    ¬ (0 < i ∧ i < (getN st 0).end_ ∧ isProc (getN st i).kind) →
    (getN st i).up = none
  hsib : ∀ j k u, j < k → k < (getN st 0).end_ →
    (getN st j).kind = .startNode →
    (getN st j).up = some u → (getN st k).up = some u →
    (getN st j).end_ ≤ k
  unproc : ∀ i, (getN st 0).end_ ≤ i → getN st i = getN ns0 i

/-- The returning End event: the stack is the lone synthetic root, the
pop closes it, and the returned store satisfies `Built`. -/
theorem built_of_return (ns0 ns : List Node) (pos top : Nat)
    (inv : Inv ns0 ns pos [top])
    (hdef : ∀ i, defaultLinks (getN ns0 i))
    (hpos : pos < ns0.length)
    (_hk : (getN ns pos).kind = .endNode) :
    top = 0 ∧
      Built ns0 (ns.set top
        (closeNode (getN ns top) pos (downFilter ns (getN ns top).pos pos))) := by
  have htop0 : top = 0 := by
    rcases inv.hstack_state with ⟨-, habs⟩ | ⟨-, pre, hpre⟩
    · cases habs
    · cases pre with
      | nil => simpa using hpre
      | cons p pre' =>
        exfalso
        simp only [List.cons_append, List.cons.injEq] at hpre
        have := hpre.2
        exact absurd this.symm (by simp)
  subst htop0
  refine ⟨rfl, ?_⟩
  have htopmem : (0 : Nat) ∈ [(0 : Nat)] := List.mem_cons_self _ _
  have htoplt : 0 < pos := inv.hstack_lt 0 htopmem
  have htopn : (0 : Nat) < ns.length := by rw [inv.hlen]; omega
  have hprops := inv.hstack_props 0 htopmem
  have hpt : (getN ns 0).pos = 0 := hprops.2.1
  have hchain : (getN ns 0).up = none := inv.hstack_chain
  have hgs : getN (ns.set 0
      (closeNode (getN ns 0) pos (downFilter ns (getN ns 0).pos pos)))
      0 = closeNode (getN ns 0) pos (downFilter ns (getN ns 0).pos pos) :=
    getN_set_self _ _ _ htopn
  have hgo : ∀ i, i ≠ 0 →
      getN (ns.set 0
        (closeNode (getN ns 0) pos (downFilter ns (getN ns 0).pos pos)))
        i = getN ns i :=
    fun i hi => getN_set_ne _ _ _ _ (fun h => hi h.symm)
  have hupall : ∀ j, (getN (ns.set 0
      (closeNode (getN ns 0) pos (downFilter ns (getN ns 0).pos pos)))
      j).up = (getN ns j).up := by
    intro j
    by_cases hj : j = 0
    · subst hj; rw [hgs]; simp
    · rw [hgo j hj]
  have hkindall : ∀ j, (getN (ns.set 0
      (closeNode (getN ns 0) pos (downFilter ns (getN ns 0).pos pos)))
      j).kind = (getN ns j).kind := by
    intro j
    by_cases hj : j = 0
    · subst hj; rw [hgs]; simp
    · rw [hgo j hj]
  have hpend : (getN (ns.set 0
      (closeNode (getN ns 0) pos (downFilter ns (getN ns 0).pos pos)))
      0).end_ = pos := by
    rw [hgs]; simp
  refine { hlen := ?hlen, hbase := ?hbase, root_kind := ?root_kind,
           root_pos := ?root_pos, root_up := ?root_up,
           pend_lt := ?pend_lt, hpos := ?hpos, hend1 := ?hend1,
           hclosed := ?hclosed, hup := ?hup, hup_none := ?hup_none,
           hsib := ?hsib, unproc := ?unproc }
  case hlen => rw [List.length_set]; exact inv.hlen
  case hbase =>
    intro i
    by_cases hi : i = 0
    · subst hi
      rw [hgs]
      simpa using inv.hbase 0
    · rw [hgo i hi]; exact inv.hbase i
  case root_kind => rw [hgs]; simpa using hprops.1
  case root_pos => rw [hgs]; simpa using hpt
  case root_up => rw [hgs]; simpa using hchain
  case pend_lt =>
    rw [hpend, List.length_set, inv.hlen]
    exact ⟨htoplt, hpos⟩
  case hpos =>
    intro i hi hproci
    rw [hpend] at hi
    rw [hkindall i] at hproci
    by_cases hi0 : i = 0
    · subst hi0
      rw [hgs]
      simpa using hpt
    · rw [hgo i hi0]
      exact inv.hproc_pos i hi hproci
  case hend1 =>
    intro i hi hmidi
    rw [hpend] at hi
    rw [hkindall i] at hmidi
    by_cases hi0 : i = 0
    · subst hi0
      exact absurd hprops.1 (isMid_not_start hmidi)
    · rw [hgo i hi0]
      exact inv.hproc_end1 i hi hmidi
  case hclosed =>
    intro i hi hkind
    rw [hpend] at hi
    rw [hkindall i] at hkind
    by_cases hi0 : i = 0
    · subst hi0
      rw [hpend, hgs]
      refine ⟨by simpa using htoplt, by simp, ?_⟩
      simp only [closeNode_down, closeNode_end]
      have hcong : downFilter
          (ns.set 0 (closeNode (getN ns 0) pos (downFilter ns (getN ns 0).pos pos)))
          0 pos = downFilter ns 0 pos :=
        downFilter_congr _ ns 0 pos (fun j hj1 hj2 => hgo j (by omega))
      rw [hcong, hpt]
    · have hnin : i ∉ [(0 : Nat)] := by simp [hi0]
      have hc := inv.hclosed i hi hkind hnin
      rw [hpend, hgo i hi0]
      refine ⟨hc.1, by omega, ?_⟩
      rw [hc.2.2]
      refine (downFilter_congr _ ns i _ ?_).symm
      intro j hj1 hj2
      exact hgo j (by omega)
  case hup =>
    intro i hi hproci
    rw [hpend] at hi
    rw [hkindall i] at hproci
    by_cases hi0 : i = 0
    · subst hi0
      exact Or.inl ⟨rfl, by rw [hgs]; simpa using hchain⟩
    · have hnin : i ∉ [(0 : Nat)] := by simp [hi0]
      rcases inv.hup i hi hproci with ⟨hip0, -⟩ |
        ⟨hip0, u, hup', hul, huk, hor⟩
      · exact absurd hip0 hi0
      · refine Or.inr ⟨hip0, u, by rw [hupall i]; exact hup', hul,
          by rw [hkindall u]; exact huk, ?_, ?_⟩
        · rcases hor with hmem | hend
          · have hu0 : u = 0 := by simpa using hmem
            subst hu0
            rw [hpend]
            exact hi
          · have hu0 : u ≠ 0 := by
              intro hcon
              subst hcon
              rw [hprops.2.2] at hend
              omega
            rw [hgo u hu0]
            exact hend
        · intro hkind
          rw [hkindall i] at hkind
          have hcp := inv.hclosed_parent i hi hkind hnin u hup'
          have hc := inv.hclosed i hi hkind hnin
          rcases hcp with hmem | hend
          · have hu0 : u = 0 := by simpa using hmem
            subst hu0
            rw [hpend, hgo i hi0]
            omega
          · have hu0 : u ≠ 0 := by
              intro hcon
              subst hcon
              rw [hprops.2.2] at hend
              omega
            rw [hgo i hi0, hgo u hu0]
            exact hend
  case hup_none =>
    intro i hni
    rw [hpend] at hni
    by_cases hi0 : i = 0
    · subst hi0
      rw [hgs]
      simpa using hchain
    · rw [hupall i]
      by_cases hip : i < pos
      · have hnp : ¬ isProc (getN (ns.set 0
            (closeNode (getN ns 0) pos (downFilter ns (getN ns 0).pos pos)))
            i).kind := by
          intro hproc
          exact hni ⟨Nat.pos_of_ne_zero hi0, hip, hproc⟩
        rw [hkindall i] at hnp
        rcases kind_trichotomy (getN ns i).kind with hproc | hoth
        · exact absurd hproc hnp
        · rw [inv.hproc_other i hip hoth]
          exact (hdef i).2.2.1
      · rw [inv.huntouched i (by omega)]
        exact (hdef i).2.2.1
  case hsib =>
    intro j k u hjk hk1 hkindj hupj hupk
    rw [hpend] at hk1
    rw [hkindall j] at hkindj
    rw [hupall j] at hupj
    rw [hupall k] at hupk
    have hj0 : j ≠ 0 := by
      intro hcon
      subst hcon
      rw [hchain] at hupj
      cases hupj
    have hprock : isProc (getN ns k).kind := by
      rcases kind_trichotomy (getN ns k).kind with hproc | hoth
      · exact hproc
      · exfalso
        rw [inv.hproc_other k (by omega) hoth, (hdef k).2.2.1] at hupk
        cases hupk
    have hss := inv.hsib j k u hjk hk1 hkindj hprock hupj hupk
    rw [hgo j hj0]
    exact hss.2
  case unproc =>
    intro i hi
    rw [hpend] at hi
    rw [hgo i (by omega)]
    exact inv.huntouched i (by omega)

/-- The master correctness lemma of the stack walk: started in an
invariant state, a successful run returns root index 0 and a store
satisfying `Built`. -/
theorem runLoop_built :
    ∀ fuel ns0 ns pos stack, ns.length - pos = fuel →
      Inv ns0 ns pos stack →
      (getN ns0 0).kind = .startNode →
      (∀ i, defaultLinks (getN ns0 i)) →
      ∀ st r, runLoop fuel ns pos stack = .ok (st, r) →
        r = 0 ∧ Built ns0 st := by
  intro fuel
  induction fuel with
  | zero =>
    intro ns0 ns pos stack hf inv hk0 hdef st r heq
    simp [runLoop] at heq
  | succ fuel ih =>
    intro ns0 ns pos stack hf inv hk0 hdef st r heq
    have hposlen : pos < ns.length := by omega
    have hpos0 : pos < ns0.length := by rw [← inv.hlen]; exact hposlen
    cases hk : (getN ns pos).kind with
    | startNode =>
      simp only [runLoop, hk] at heq
      exact ih ns0 _ (pos + 1) (pos :: stack)
        (by rw [List.length_set]; omega)
        (inv_step_start ns0 ns pos stack inv hdef hpos0 hk) hk0 hdef
        st r heq
    | attrNode =>
      simp only [runLoop, hk] at heq
      exact ih ns0 _ (pos + 1) stack (by rw [List.length_set]; omega)
        (inv_step_leaf ns0 ns pos stack inv hk0 hpos0 (Or.inl hk)) hk0 hdef
        st r heq
    | textNode =>
      simp only [runLoop, hk] at heq
      exact ih ns0 _ (pos + 1) stack (by rw [List.length_set]; omega)
        (inv_step_leaf ns0 ns pos stack inv hk0 hpos0 (Or.inr (Or.inl hk)))
        hk0 hdef st r heq
    | commentNode =>
      simp only [runLoop, hk] at heq
      exact ih ns0 _ (pos + 1) stack (by rw [List.length_set]; omega)
        (inv_step_leaf ns0 ns pos stack inv hk0 hpos0
          (Or.inr (Or.inr (Or.inl hk)))) hk0 hdef st r heq
    | procInstNode =>
      simp only [runLoop, hk] at heq
      exact ih ns0 _ (pos + 1) stack (by rw [List.length_set]; omega)
        (inv_step_leaf ns0 ns pos stack inv hk0 hpos0
          (Or.inr (Or.inr (Or.inr hk)))) hk0 hdef st r heq
    | anyNode =>
      simp only [runLoop, hk] at heq
      exact ih ns0 ns (pos + 1) stack (by omega)
        (inv_step_any ns0 ns pos stack inv hk0 hdef hpos0 hk) hk0 hdef
        st r heq
    | endNode =>
      cases stack with
      | nil =>
        simp [runLoop, hk] at heq
      | cons top stack' =>
        simp only [runLoop, hk] at heq
        by_cases hs : stack' = []
        · subst hs
          rw [if_pos rfl] at heq
          have hinj := Except.ok.inj heq
          obtain ⟨h1, h2⟩ := Prod.mk.inj hinj
          subst h1
          subst h2
          exact built_of_return ns0 ns pos top inv hdef hpos0 hk
        · rw [if_neg hs] at heq
          exact ih ns0 _ (pos + 1) stack' (by rw [List.length_set]; omega)
            (inv_step_end ns0 ns pos top stack' inv hdef hpos0 hk hs)
            hk0 hdef st r heq

theorem mkNode_defaultLinks (k : NodeKind) (nm : XmlName)
    (a t : List Nat) : defaultLinks (mkNode k nm a t) :=
  ⟨rfl, rfl, rfl, rfl⟩

theorem defaultLinks_getN (l : List Node) (h : ∀ n ∈ l, defaultLinks n) :
    ∀ i, defaultLinks (getN l i) := by
  intro i
  by_cases hi : i < l.length
  · have hg : getN l i = l[i] := by
      simp [getN, List.getElem?_eq_getElem hi]
    rw [hg]
    exact h _ (List.getElem_mem hi)
  · rw [getN_oob l i (by omega)]
    exact ⟨rfl, rfl, rfl, rfl⟩

theorem materialize_defaultLinks (ts : List Token) :
    ∀ n ∈ materialize ts, defaultLinks n := by
  induction ts with
  | nil => intro n hn; cases hn
  | cons t ts ih =>
    intro n hn
    cases t with
    | endElement =>
      simp only [materialize, List.singleton_append, List.mem_cons] at hn
      rcases hn with rfl | hn
      · exact mkNode_defaultLinks _ _ _ _
      · exact ih n hn
    | startElement nm attrs =>
      simp only [materialize, List.cons_append, List.mem_cons,
        List.mem_append, List.mem_map] at hn
      rcases hn with rfl | hn | hn
      · exact mkNode_defaultLinks _ _ _ _
      · obtain ⟨a, -, rfl⟩ := hn
        exact mkNode_defaultLinks _ _ _ _
      · exact ih n hn
    | charData b =>
      simp only [materialize, List.singleton_append, List.mem_cons] at hn
      rcases hn with rfl | hn
      · exact mkNode_defaultLinks _ _ _ _
      · exact ih n hn
    | comment b =>
      simp only [materialize, List.singleton_append, List.mem_cons] at hn
      rcases hn with rfl | hn
      · exact mkNode_defaultLinks _ _ _ _
      · exact ih n hn
    | procInst tg b =>
      simp only [materialize, List.singleton_append, List.mem_cons] at hn
      rcases hn with rfl | hn
      · exact mkNode_defaultLinks _ _ _ _
      · exact ih n hn

mutual

theorem emit_defaultLinks : ∀ h : HtmlNode, ∀ n ∈ emit h, defaultLinks n
  | .document cs => fun n hn => emitList_defaultLinks cs n hn
  | .element nm sp attrs cs => fun n hn => by
    rw [emit] at hn
    rcases List.mem_cons.mp hn with hn | hn
    · rw [hn]; exact mkNode_defaultLinks _ _ _ _
    · rw [List.mem_append] at hn
      rcases hn with hn | hn
      · obtain ⟨a, -, rfl⟩ := List.mem_map.mp hn
        exact mkNode_defaultLinks _ _ _ _
      · rw [List.mem_append] at hn
        rcases hn with hn | hn
        · exact emitList_defaultLinks cs n hn
        · rw [List.mem_singleton] at hn
          rw [hn]; exact mkNode_defaultLinks _ _ _ _
  | .text b => fun n hn => by
    rw [emit, List.mem_singleton] at hn
    rw [hn]; exact mkNode_defaultLinks _ _ _ _
  | .comment b => fun n hn => by
    rw [emit, List.mem_singleton] at hn
    rw [hn]; exact mkNode_defaultLinks _ _ _ _
  | .other => fun n hn => by
    rw [emit] at hn
    cases hn

theorem emitList_defaultLinks :
    ∀ l : List HtmlNode, ∀ n ∈ emitList l, defaultLinks n
  | [] => fun n hn => by rw [emitList] at hn; cases hn
  | c :: cs => fun n hn => by
    rw [emitList, List.mem_append] at hn
    rcases hn with hn | hn
    · exact emit_defaultLinks c n hn
    · exact emitList_defaultLinks cs n hn

end

theorem initialStore_defaultLinks (middle : List Node)
    (h : ∀ n ∈ middle, defaultLinks n) :
    ∀ i, defaultLinks (getN (initialStore middle) i) := by
  apply defaultLinks_getN
  intro n hn
  simp only [initialStore, List.cons_append, List.mem_cons, List.mem_append,
    List.mem_singleton] at hn
  rcases hn with rfl | hn | (rfl | hcon)
  · exact mkNode_defaultLinks _ _ _ _
  · exact h n hn
  · exact mkNode_defaultLinks _ _ _ _
  · cases hcon

theorem initialStore_kind0 (middle : List Node) :
    (getN (initialStore middle) 0).kind = .startNode := by
  simp [getN, initialStore, mkNode]

/-- A successful build satisfies Built, with root index 0. -/
theorem build_built (middle : List Node)
    (hdefm : ∀ n ∈ middle, defaultLinks n) (st : List Node) (r : Nat)
    (heq : build middle = .ok (st, r)) :
    r = 0 ∧ Built (initialStore middle) st := by
  unfold build at heq
  exact runLoop_built _ _ _ 0 [] (by omega) (inv_init _)
    (initialStore_kind0 middle) (initialStore_defaultLinks middle hdefm)
    st r heq

theorem ParseDecoder_built (ts : List Token) (st : List Node) (r : Nat)
    (heq : ParseDecoder ts = .ok (st, r)) :
    r = 0 ∧ Built (initialStore (materialize ts)) st :=
  build_built (materialize ts) (materialize_defaultLinks ts) st r heq

theorem ParseHTML_built (doc : HtmlNode) (st : List Node) (r : Nat)
    (heq : ParseHTML doc = .ok (st, r)) :
    r = 0 ∧ Built (initialStore (emit doc)) st :=
  build_built (emit doc) (emit_defaultLinks doc) st r heq

theorem range_split (lo hi n : Nat) (h1 : lo ≤ hi) (h2 : hi ≤ n) :
    List.range n =
      (List.range' 0 lo ++ List.range' lo (hi - lo)) ++
        List.range' hi (n - hi) := by
  rw [List.range_eq_range']
  have e1 : List.range' 0 lo 1 ++ List.range' (0 + 1 * lo) (hi - lo) 1 =
      List.range' 0 ((hi - lo) + lo) 1 := List.range'_append 0 lo (hi - lo) 1
  have e2 : List.range' 0 hi 1 ++ List.range' (0 + 1 * hi) (n - hi) 1 =
      List.range' 0 ((n - hi) + hi) 1 := List.range'_append 0 hi (n - hi) 1
  rw [show (0 + 1 * lo) = lo by omega, show (hi - lo) + lo = hi by omega]
    at e1
  rw [show (0 + 1 * hi) = hi by omega, show (n - hi) + hi = n by omega]
    at e2
  rw [e1, e2]

/-- A filter over the whole index range equals the filter over a
window outside which the predicate never holds. -/
theorem filter_range_eq_mid (n lo hi : Nat) (p : Nat → Bool)
    (h1 : lo ≤ hi) (h2 : hi ≤ n)
    (hin : ∀ j, p j = true → lo ≤ j ∧ j < hi) :
    (List.range n).filter p = (idxRange lo hi).filter p := by
  rw [range_split lo hi n h1 h2, List.filter_append, List.filter_append]
  have hl : (List.range' 0 lo).filter p = [] := by
    rw [List.filter_eq_nil_iff]
    intro a ha hpa
    rw [List.mem_range'_1] at ha
    have := hin a hpa
    omega
  have hr : (List.range' hi (n - hi)).filter p = [] := by
    rw [List.filter_eq_nil_iff]
    intro a ha hpa
    rw [List.mem_range'_1] at ha
    have := hin a hpa
    omega
  rw [hl, hr]
  simp [idxRange]

theorem initialStore_name0 (middle : List Node) :
    (getN (initialStore middle) 0).name = emptyName := by
  simp [getN, initialStore, mkNode]

/-- Every index recorded as some node's parent lies inside the tree
and carries a Start node. -/
theorem built_up_target (ns0 st : List Node) (hB : Built ns0 st)
    (j u : Nat) (hup : (getN st j).up = some u) :
    0 < j ∧ j < (getN st 0).end_ ∧ isProc (getN st j).kind ∧
      u < j ∧ (getN st u).kind = .startNode ∧ j < (getN st u).end_ := by
  have hj3 : 0 < j ∧ j < (getN st 0).end_ ∧ isProc (getN st j).kind := by
    by_contra hcon
    rw [hB.hup_none j hcon] at hup
    cases hup
  rcases hB.hup j hj3.2.1 hj3.2.2 with ⟨hj0, -⟩ |
    ⟨-, u', hsome, hul, huk, hjend, -⟩
  · omega
  · have huu : u' = u := Option.some.inj (hsome.symm.trans hup)
    rw [huu] at hul huk hjend
    exact ⟨hj3.1, hj3.2.1, hj3.2.2, hul, huk, hjend⟩

/-- Claim C6: for every canonical event sequence (the synthetic root
Start, the materialized tokens, the synthetic closing End), the
builder succeeds — returning a tree — exactly when the stack-discipline
scan reaches the End event that empties the stack (the synthetic
root's End); an End arriving with an empty stack maps to the distinct
underflow signal and a still-open stack at end of input maps to the
io.EOF error, so no malformed tree is ever returned silently. -/
theorem termination_outcome (ts : List Token) :
    outcomeOf (ParseDecoder ts) =
      specOutcome
        ((mkNode .startNode emptyName [] [] :: materialize ts ++
          [mkNode .endNode emptyName [] []]).map Node.kind) 0 := by
  unfold ParseDecoder build
  rw [runLoop_outcome _ _ _ _ (by omega), List.drop_zero]
  rfl

/-! ## Claims C5, C7, C8, C10 over arbitrary successful parses -/

/-- The children property of any store satisfying `Built` (both
construction paths funnel into it): a Start node's `down` slice is
exactly the index-ordered filter of the whole store for the entries
parented to it with an eligible kind. -/
theorem built_children (ns0 st : List Node) (hB : Built ns0 st)
    (hdef0 : ∀ i, defaultLinks (getN ns0 i)) :
    ∀ i, (getN st i).kind = .startNode →
      (getN st i).down = (List.range st.length).filter
        (fun j => ((getN st j).up == some i) &&
          downKind (getN st j).kind) := by
  intro i hkind
  by_cases hip : i < (getN st 0).end_
  · have hc := hB.hclosed i hip hkind
    rw [hc.2.2]
    unfold downFilter
    refine (filter_range_eq_mid st.length (i + 1) (getN st i).end_ _
      hc.1 (by have := hB.pend_lt.2; omega) ?_).symm
    intro j hpj
    rw [Bool.and_eq_true, beq_iff_eq] at hpj
    have ht := built_up_target _ st hB j i hpj.1
    exact ⟨by omega, ht.2.2.2.2.2⟩
  · have hu := hB.unproc i (by omega)
    have hd := hdef0 i
    rw [hu] at hkind ⊢
    rw [hd.2.2.2]
    symm
    rw [List.filter_eq_nil_iff]
    intro j hj hpj
    rw [Bool.and_eq_true, beq_iff_eq] at hpj
    have ht := built_up_target _ st hB j i hpj.1
    have hie : (getN st i).end_ = 0 := by rw [hu]; exact hd.2.1
    rw [hie] at ht
    omega

/-- Claim C5: in every successfully constructed tree — on the XML path
and on the HTML path alike — the children list of any Start node is
exactly the index-ordered (= document-order) list of the store entries
whose parent is that node and whose kind is one of
Start/Text/Comment/ProcInstruction; in particular no Attr node ever
appears there (`downKind` excludes it), and the parent of every listed
entry is the node itself (the filter condition). -/
theorem children_exactly_parented (ts : List Token) (doc : HtmlNode)
    (st st' : List Node) (r r' : Nat)
    (h1 : ParseDecoder ts = .ok (st, r))
    (h2 : ParseHTML doc = .ok (st', r')) :
    (∀ i, (getN st i).kind = .startNode →
      (getN st i).down = (List.range st.length).filter
        (fun j => ((getN st j).up == some i) &&
          downKind (getN st j).kind)) ∧
    (∀ i, (getN st' i).kind = .startNode →
      (getN st' i).down = (List.range st'.length).filter
        (fun j => ((getN st' j).up == some i) &&
          downKind (getN st' j).kind)) := by
  obtain ⟨-, hB⟩ := ParseDecoder_built ts st r h1
  obtain ⟨-, hB'⟩ := ParseHTML_built doc st' r' h2
  exact ⟨built_children _ st hB
      (initialStore_defaultLinks _ (materialize_defaultLinks ts)),
    built_children _ st' hB'
      (initialStore_defaultLinks _ (emit_defaultLinks doc))⟩

/-- Claim C7: for every well-formed input the returned root's kind is
Start, and the materialized value (Node.Bytes) of any Start node is
the ordered concatenation of the text of every Text-kind entry of its
range, with Comment/ProcInstruction/Attr (and Start/End) entries
excluded (specVirtualValue, worded from the spec). -/
theorem root_start_and_bytes_concat (ts : List Token) (st : List Node)
    (r : Nat) (h : ParseDecoder ts = .ok (st, r)) :
    (getN st r).kind = .startNode ∧
    ∀ i, (getN st i).kind = .startNode →
      Node.Bytes st (getN st i) =
        specVirtualValue st (getN st i).pos (getN st i).end_ := by
  obtain ⟨hr, hB⟩ := ParseDecoder_built ts st r h
  subst hr
  refine ⟨hB.root_kind, ?_⟩
  intro i hkind
  unfold Node.Bytes specVirtualValue
  rw [if_neg (show ¬((getN st i).kind = .attrNode) from by
      rw [hkind]; intro hcon; cases hcon),
    if_neg (show ¬¬((getN st i).kind = .startNode) from
      fun hcon => hcon hkind)]
  rw [bytesAux_eq, joinTexts_eq_spec, List.nil_append]

/-- d is a descendant of n in the constructed tree: the recorded
parent chain from d reaches n. -/
inductive IsDesc (st : List Node) : Nat → Nat → Prop where
  | parent (n d : Nat) : (getN st d).up = some n → IsDesc st n d
  | trans (n m d : Nat) : IsDesc st n m → IsDesc st m d → IsDesc st n d

/-- Claim C8: in every successfully constructed tree, (a) every
non-Start node of the tree has range exactly [pos, pos + 1) with pos
its own index; (b) every ancestor along the parent chain is a Start
node whose range strictly contains the descendant's range (the
ancestor's own pos lies in its range but not in the descendant's); and
(c) the ranges of two distinct siblings never overlap. -/
theorem range_invariants (ts : List Token) (st : List Node)
    (r : Nat) (h : ParseDecoder ts = .ok (st, r)) :
    (∀ i, i < (getN st r).end_ → isMid (getN st i).kind →
      (getN st i).pos = i ∧ (getN st i).end_ = (getN st i).pos + 1) ∧
    (∀ n d, IsDesc st n d →
      (getN st n).kind = .startNode ∧
      (getN st n).pos < (getN st d).pos ∧
      (getN st d).end_ ≤ (getN st n).end_ ∧
      (getN st n).pos < (getN st n).end_) ∧
    (∀ j k u, j ≠ k → (getN st j).up = some u →
      (getN st k).up = some u →
      (getN st j).end_ ≤ (getN st k).pos ∨
        (getN st k).end_ ≤ (getN st j).pos) := by
  obtain ⟨hr, hB⟩ := ParseDecoder_built ts st r h
  subst hr
  refine ⟨?_, ?_, ?_⟩
  · intro i hi hmid
    have hp := hB.hpos i hi (isProc_of_isMid hmid)
    have he := hB.hend1 i hi hmid
    exact ⟨hp, by rw [hp]; exact he⟩
  · have hstep : ∀ n d, (getN st d).up = some n →
        (getN st n).kind = .startNode ∧
        (getN st n).pos < (getN st d).pos ∧
        (getN st d).end_ ≤ (getN st n).end_ ∧
        (getN st n).pos < (getN st n).end_ := by
      intro n d hup
      have ht := built_up_target _ st hB d n hup
      obtain ⟨hd0, hdp, hdproc, hnd, hnk, hdend⟩ := ht
      have hpd : (getN st d).pos = d := hB.hpos d hdp hdproc
      have hnp : n < (getN st 0).end_ := by omega
      have hpn : (getN st n).pos = n := hB.hpos n hnp (Or.inl hnk)
      refine ⟨hnk, by rw [hpn, hpd]; omega, ?_, by rw [hpn]; omega⟩
      rcases hdproc with hstart | hmid
      · rcases hB.hup d hdp (Or.inl hstart) with ⟨hd00, -⟩ |
          ⟨-, u', hsome, -, -, -, himp⟩
        · omega
        · have huu : u' = n := Option.some.inj (hsome.symm.trans hup)
          rw [huu] at himp
          have := himp hstart
          omega
      · have := hB.hend1 d hdp hmid
        omega
    intro n d hdesc
    induction hdesc with
    | parent n d hup => exact hstep n d hup
    | trans n m d h1 h2 ih1 ih2 =>
      obtain ⟨hk1, hp1, he1, hr1⟩ := ih1
      obtain ⟨hk2, hp2, he2, hr2⟩ := ih2
      exact ⟨hk1, by omega, by omega, hr1⟩
  · intro j k u hjk hupj hupk
    have main : ∀ a b, a < b → (getN st a).up = some u →
        (getN st b).up = some u →
        (getN st a).end_ ≤ (getN st b).pos := by
      intro a b hab hupa hupb
      have hta := built_up_target _ st hB a u hupa
      have htb := built_up_target _ st hB b u hupb
      have hpb : (getN st b).pos = b := hB.hpos b htb.2.1 htb.2.2.1
      rw [hpb]
      rcases hta.2.2.1 with hstart | hmid
      · exact hB.hsib a b u hab htb.2.1 hstart hupa hupb
      · have := hB.hend1 a hta.2.1 hmid
        omega
    rcases Nat.lt_trichotomy j k with hlt | heq | hgt
    · exact Or.inl (main j k hlt hupj hupk)
    · exact absurd heq hjk
    · exact Or.inr (main k j hgt hupk hupj)

/-- Root facts shared by both construction paths. -/
theorem built_root_facts (ns0 st : List Node) (hB : Built ns0 st)
    (hname : (getN ns0 0).name = emptyName) :
    (getN st 0).kind = .startNode ∧ (getN st 0).name = emptyName ∧
    (getN st 0).up = none ∧
    ∀ j, (getN st j).up = some 0 → downKind (getN st j).kind = true →
      j ∈ (getN st 0).down := by
  refine ⟨hB.root_kind, by rw [(hB.hbase 0).2.1, hname], hB.root_up, ?_⟩
  intro j hupj hdk
  have ht := built_up_target ns0 st hB j 0 hupj
  have hc := hB.hclosed 0 hB.pend_lt.1 hB.root_kind
  rw [hc.2.2]
  unfold downFilter
  rw [List.mem_filter]
  constructor
  · rw [mem_idxRange]
    exact ⟨by omega, ht.2.2.2.2.2⟩
  · rw [Bool.and_eq_true, beq_iff_eq]
    exact ⟨hupj, hdk⟩

/-- Claim C10: on both the XML and the HTML path, every successful
construction returns the synthetic wrapper as the root: index 0, kind
Start, empty xml.Name, no parent; and every entry recorded as a direct
child of it (an eligible-kind entry whose parent is the root) appears
in the root's children list, so the document's top-level element is
among the root's children, never the root itself. -/
theorem synthetic_root (ts : List Token) (doc : HtmlNode)
    (st st' : List Node) (r r' : Nat)
    (h1 : ParseDecoder ts = .ok (st, r))
    (h2 : ParseHTML doc = .ok (st', r')) :
    (r = 0 ∧ (getN st r).kind = .startNode ∧
      (getN st r).name = emptyName ∧ (getN st r).up = none ∧
      ∀ j, (getN st j).up = some r → downKind (getN st j).kind = true →
        j ∈ (getN st r).down) ∧
    (r' = 0 ∧ (getN st' r').kind = .startNode ∧
      (getN st' r').name = emptyName ∧ (getN st' r').up = none ∧
      ∀ j, (getN st' j).up = some r' → downKind (getN st' j).kind = true →
        j ∈ (getN st' r').down) := by
  obtain ⟨hr, hB⟩ := ParseDecoder_built ts st r h1
  obtain ⟨hr', hB'⟩ := ParseHTML_built doc st' r' h2
  subst hr
  subst hr'
  exact ⟨⟨rfl, built_root_facts _ st hB (initialStore_name0 _)⟩,
    ⟨rfl, built_root_facts _ st' hB' (initialStore_name0 _)⟩⟩

/-! ## Concrete witnesses: the round-trip document
`<a x="1"><b>he</b>llo<!--c--></a>` and a small HTML document -/

def tsW : List Token :=
  [.startElement ⟨[], [97]⟩ [(⟨[], [120]⟩, [49])],
    .startElement ⟨[], [98]⟩ [], .charData [104, 101], .endElement,
    .charData [108, 108, 111], .comment [99], .endElement]

def stW : List Node := storeOf (ParseDecoder tsW)

theorem parseW : ParseDecoder tsW = .ok (stW, 0) := by rfl

def docW : HtmlNode :=
  .document [.element [104, 116, 109, 108] [] [] []]

def stHW : List Node := storeOf (ParseHTML docW)

theorem parseHW : ParseHTML docW = .ok (stHW, 0) := by rfl

/-- Witness for C5 at the element `a` (index 1) of the round-trip
document. -/
theorem children_exactly_parented_witness :
    (getN stW 1).down = (List.range stW.length).filter
      (fun j => ((getN stW j).up == some 1) &&
        downKind (getN stW j).kind) :=
  (children_exactly_parented tsW docW stW stHW 0 0 parseW parseHW).1
    1 (by decide)

/-- Witness for C7 at the element `a` (index 1): its value is the
concatenation "hello" of its Text descendants. -/
theorem root_start_and_bytes_concat_witness :
    Node.Bytes stW (getN stW 1) =
      specVirtualValue stW (getN stW 1).pos (getN stW 1).end_ :=
  (root_start_and_bytes_concat tsW stW 0 parseW).2 1 (by decide)

/-- Witness for C8 at the Attr entry (index 2) of the round-trip
document. -/
theorem range_invariants_witness :
    (getN stW 2).pos = 2 ∧ (getN stW 2).end_ = (getN stW 2).pos + 1 :=
  (range_invariants tsW stW 0 parseW).1 2 (by decide)
    (Or.inl (by decide))

/-- Witness for C10: the XML root of the round-trip document carries
the empty synthetic name. -/
theorem synthetic_root_witness : (getN stW 0).name = emptyName :=
  (synthetic_root tsW docW stW stHW 0 0 parseW parseHW).1.2.2.1

end Xmlpath
